import Mathlib

set_option maxHeartbeats 1000000
set_option maxRecDepth 8000

/-!
Verification of the streaming HTML-insertion engine of `insert-html-content`
(`src/index.js`).  Byte chunks are modelled as `List Nat` (one `Nat` per byte),
decoded text as a `List Nat` of Unicode code points.  The `HtmlInsertionStream`
class is modelled as an explicit state record, its methods as pure state
transformers; the `parse5-sax-parser` tokenizer is an external collaborator and
is modelled at its interface boundary: token events (with cumulative UTF-16
source offsets) are inputs to the run, constrained by a decidable validity
check that captures the tokenizer contract.
-/

namespace InsertHtml

/-- Concatenation of a list of byte chunks (`Buffer.concat` without an explicit
total-length argument). -/
def flat : List (List Nat) → List Nat
  | [] => []
  | b :: bs => b ++ flat bs

/-- `Buffer.concat(chunks, totalLength)`: copies `flat chunks`, truncating at or
zero-padding up to `totalLength`. -/
def bufConcat (bs : List (List Nat)) (totalLength : Nat) : List Nat :=
  (flat bs).take totalLength ++ List.replicate (totalLength - (flat bs).length) 0

/-- UTF-8 encoding of a single Unicode code point (scalar values; the engine's
decoder never emits surrogates). -/
def utf8EncodeChar (c : Nat) : List Nat :=
  if c < 0x80 then [c]
  else if c < 0x800 then [0xC0 + c / 64, 0x80 + c % 64]
  else if c < 0x10000 then [0xE0 + c / 4096, 0x80 + (c / 64) % 64, 0x80 + c % 64]
  else [0xF0 + c / 262144, 0x80 + (c / 4096) % 64, 0x80 + (c / 64) % 64, 0x80 + c % 64]

/-- UTF-8 encoding of a code-point sequence (`Buffer.byteLength` measures the
length of this). -/
def utf8Encode : List Nat → List Nat
  | [] => []
  | c :: cs => utf8EncodeChar c ++ utf8Encode cs

/-- UTF-16 code-unit length of one code point (JS string offsets count
UTF-16 units). -/
def utf16LenC (c : Nat) : Nat := if c < 0x10000 then 1 else 2

/-- UTF-16 code-unit length of a code-point sequence (JS `String.length`). -/
def utf16Len : List Nat → Nat
  | [] => 0
  | c :: cs => utf16LenC c + utf16Len cs

/-- `str.substring(0, off)` on a JS string holding these code points, with `off`
in UTF-16 units.  If `off` falls inside a surrogate pair the JS substring ends
in a lone surrogate, whose UTF-8 byte length is 3; that case is modelled by a
final `0xFFFD`.  Offsets beyond the end clamp to the whole string. -/
def take16 : List Nat → Nat → List Nat
  | _, 0 => []
  | [], _ => []
  | c :: cs, Nat.succ n =>
      if utf16LenC c ≤ n + 1 then c :: take16 cs (n + 1 - utf16LenC c) else [0xFFFD]

/-- `Buffer.byteLength(stringBuffer.substring(0, off))`. -/
def byteLen16 (log : List Nat) (off : Nat) : Nat := (utf8Encode (take16 log off)).length

/-- The offset `off` lies on a code-point boundary of `log` and within it
(tokenizer offsets always do). -/
def isAligned16 : List Nat → Nat → Bool
  | _, 0 => true
  | [], Nat.succ _ => false
  | c :: cs, Nat.succ n => utf16LenC c ≤ n + 1 && isAligned16 cs (n + 1 - utf16LenC c)

/-! ### Incremental UTF-8 decoder

Model of `new TextDecoder('utf8', {fatal: true})`: the decoder state is the
byte list of the current incomplete sequence (at most 3 bytes). -/

/-- Is `b` an admissible continuation byte given lead byte `lead` in first
continuation position (WHATWG utf-8 decode ranges). -/
def contOk (lead b : Nat) : Bool :=
  if lead = 0xE0 then 0xA0 ≤ b && b ≤ 0xBF
  else if lead = 0xED then 0x80 ≤ b && b ≤ 0x9F
  else if lead = 0xF0 then 0x90 ≤ b && b ≤ 0xBF
  else if lead = 0xF4 then 0x80 ≤ b && b ≤ 0x8F
  else 0x80 ≤ b && b ≤ 0xBF

/-- One step of the fatal UTF-8 decoder: given the pending partial sequence and
the next byte, return the emitted code points and the new pending sequence, or
`none` on a malformed sequence (the decoder throws). -/
def decodeStep (pending : List Nat) (b : Nat) : Option (List Nat × List Nat) :=
  match pending with
  | [] =>
      if b < 0x80 then some ([b], [])
      else if 0xC2 ≤ b && b ≤ 0xDF then some ([], [b])
      else if 0xE0 ≤ b && b ≤ 0xEF then some ([], [b])
      else if 0xF0 ≤ b && b ≤ 0xF4 then some ([], [b])
      else none
  | [l] =>
      if contOk l b then
        if l ≤ 0xDF then some ([(l - 0xC0) * 64 + (b - 0x80)], [])
        else some ([], [l, b])
      else none
  | [l, b1] =>
      if 0x80 ≤ b && b ≤ 0xBF then
        if l ≤ 0xEF then some ([(l - 0xE0) * 4096 + (b1 - 0x80) * 64 + (b - 0x80)], [])
        else some ([], [l, b1, b])
      else none
  | [l, b1, b2] =>
      if 0x80 ≤ b && b ≤ 0xBF then
        some ([(l - 0xF0) * 262144 + (b1 - 0x80) * 4096 + (b2 - 0x80) * 64 + (b - 0x80)], [])
      else none
  | _ => none

/-- Well-formedness of a pending partial sequence. -/
def pendOk : List Nat → Bool
  | [] => true
  | [l] => (0xC2 ≤ l && l ≤ 0xDF) || (0xE0 ≤ l && l ≤ 0xEF) || (0xF0 ≤ l && l ≤ 0xF4)
  | [l, b1] => ((0xE0 ≤ l && l ≤ 0xEF) || (0xF0 ≤ l && l ≤ 0xF4)) && contOk l b1
  | [l, b1, b2] => (0xF0 ≤ l && l ≤ 0xF4) && contOk l b1 && (0x80 ≤ b2 && b2 ≤ 0xBF)
  | _ => false

/-- Fatal streaming decode of a byte chunk (`utf8Decoder.decode(data, {stream:
true})`): returns the emitted code points and the new pending sequence, or
`none` if the decoder throws. -/
def decodeBytes : List Nat → List Nat → Option (List Nat × List Nat)
  | pending, [] => some ([], pending)
  | pending, b :: bs =>
      match decodeStep pending b with
      | none => none
      | some (out, p2) =>
          match decodeBytes p2 bs with
          | none => none
          | some (out2, p3) => some (out ++ out2, p3)

/-! ### The streaming insertion engine (`class HtmlInsertionStream`)

The tokenizer (`parse5-sax-parser`) is external; its token events are inputs.
A token carries its event kind and cumulative UTF-16 source offsets
(`sourceCodeLocation.startOffset/endOffset`). -/

inductive TKind
  | startTag
  | endTag
  | comment
  | text
  | doctype
deriving DecidableEq, Repr

structure Token where
  kind : TKind
  tagName : String
  startOffset : Nat
  endOffset : Nat
deriving DecidableEq, Repr

/-- Errors emitted on the response's error channel. -/
inductive Err
  | encodingErr
  | decodeErr
  | contentTypeErr
  | contentLengthErr
deriving DecidableEq, Repr

/-- State of one `HtmlInsertionStream` instance.  `pending` is the incremental
decoder state; `spliced` records that `[onTag]` has run for the matching tag
(the insertion listener removed itself and the parser was stopped);
`anyListenersOn` records whether the `[onAnyToken]` listeners are attached. -/
structure HtmlInsertionStream where
  buffers : List (List Nat)
  stringBuffer : List Nat
  len : Nat
  writableOffset : Nat
  writtenOffset : Nat
  shouldParseHtml : Bool
  pending : List Nat
  spliced : Bool
  anyListenersOn : Bool
  targetTagName : String
  insertionChunk : List Nat
  insertionLength : Nat
  insertToEnd : Bool
deriving DecidableEq, Repr

/-- ASCII lower-casing of a character code. -/
def lowerCode (n : Nat) : Nat := if 65 ≤ n && n ≤ 90 then n + 32 else n

namespace HtmlInsertionStream

/-- `this.insertionEventName` (as an event kind). -/
def insertionKind (e : HtmlInsertionStream) : TKind :=
  if e.insertToEnd then TKind.endTag else TKind.startTag

/-- `[push](data)`: append a nonempty chunk; an empty chunk is ignored. -/
def push (e : HtmlInsertionStream) (data : List Nat) : HtmlInsertionStream :=
  if data.length = 0 then e
  else { e with len := e.len + data.length, buffers := e.buffers ++ [data] }

/-- `[onAnyToken]`: advance the safe-to-release watermark to the byte length of
the decoded-text prefix ending at the token's `endOffset`. -/
def onAnyToken (e : HtmlInsertionStream) (t : Token) : HtmlInsertionStream :=
  { e with writableOffset := byteLen16 e.stringBuffer t.endOffset }

/-- The chunk-walking loop of `[onTag]`, in relative-index form: the source
keeps an absolute running total `index` and compares
`index + buffer.length >= insertionIndex`, splitting the chunk at
`insertionIndex - index`; here `idx` stands for `insertionIndex - index`,
which stays positive on the recursive path, so the two forms agree.  If the
loop exhausts the chunks without the condition holding (no `break`), the
buffer list is left unchanged. -/
def spliceBuffers : List (List Nat) → Nat → List Nat → List (List Nat)
  | [], _, _ => []
  | b :: bs, idx, payload =>
      if idx ≤ b.length then b.take idx :: payload :: b.drop idx :: bs
      else b :: spliceBuffers bs (idx - b.length) payload

/-- The `insertionIndex` constant of `[onTag]`:
`Buffer.byteLength(stringBuffer.substring(0, boundary)) - writtenOffset`,
where the boundary is the token's `startOffset` when `insertToEnd` and its
`endOffset` otherwise. -/
def insertionIndexOf (e : HtmlInsertionStream) (t : Token) : Nat :=
  byteLen16 e.stringBuffer (if e.insertToEnd then t.startOffset else t.endOffset) -
    e.writtenOffset

/-- `[onTag]`: on the insertion event for the target tag name, detach all
listeners, stop the parser, clear `shouldParseHtml`, splice the insertion
chunk into the buffered byte queue at `insertionIndexOf`, and add
`insertionLength` to `len`. -/
def onTag (e : HtmlInsertionStream) (t : Token) : HtmlInsertionStream :=
  if t.tagName = e.targetTagName then
    { e with
      spliced := true
      anyListenersOn := false
      shouldParseHtml := false
      buffers := spliceBuffers e.buffers (insertionIndexOf e t) e.insertionChunk
      len := e.len + e.insertionLength }
  else e

/-- Dispatch of one tokenizer event to the attached listeners: `[onAnyToken]`
fires for every structural token while attached; `[onTag]` fires for the
insertion event kind.  After the splice (`spliced`), all listeners are gone and
the parser is stopped, so events have no effect. -/
def processToken (e : HtmlInsertionStream) (t : Token) : HtmlInsertionStream :=
  if e.spliced then e
  else
    let e1 := if e.anyListenersOn then onAnyToken e t else e
    if t.kind = insertionKind e1 then onTag e1 t else e1

def processTokens : HtmlInsertionStream → List Token → HtmlInsertionStream
  | e, [] => e
  | e, t :: ts => processTokens (processToken e t) ts

/-- The chunk-walking loop of `getWritableBuffer`, in relative-index form (the
source compares `index + buffer.length` with `===` and then `>` against
`writableLen`).  Returns the released chunks and the remaining queue; `none`
when the loop falls through without returning (the source then returns an
empty buffer, the state mutations having already happened). -/
def releaseLoop : List (List Nat) → Nat → Option (List (List Nat) × List (List Nat))
  | [], _ => none
  | b :: bs, wlen =>
      if b.length = wlen then some ([b], bs)
      else if wlen < b.length then some ([b.take wlen], b.drop wlen :: bs)
      else
        match releaseLoop bs (wlen - b.length) with
        | none => none
        | some (rel, rest) => some (b :: rel, rest)

/-- `getWritableBuffer()`: if the pending-release marker `writableOffset` is
nonzero, advance `writtenOffset`, reset the marker, decrement `len`, and remove
the released prefix from the queue, returning it as one buffer. -/
def getWritableBuffer (e : HtmlInsertionStream) : List Nat × HtmlInsertionStream :=
  if e.writableOffset ≠ 0 then
    let wlen := e.writableOffset - e.writtenOffset
    let e1 := { e with
      writtenOffset := e.writableOffset
      writableOffset := 0
      len := e.len - wlen }
    match releaseLoop e.buffers wlen with
    | some (rel, rest) => (bufConcat rel wlen, { e1 with buffers := rest })
    | none => ([], e1)
  else ([], e)

/-- `[flush]()`: pop the single remaining chunk, or concatenate the whole
queue using the tracked `len` as the total length. -/
def flush (e : HtmlInsertionStream) : List Nat × HtmlInsertionStream :=
  if e.buffers.length = 1 then (e.buffers.headD [], { e with buffers := [] })
  else (bufConcat e.buffers e.len, { e with buffers := [] })

/-- `/utf-?8/ui.test(encoding)`: case-insensitive substring search, modelled on
character-code lists (ASCII case folding, which is what the pattern needs). -/
def startsWithL : List Nat → List Nat → Bool
  | [], _ => true
  | _ :: _, [] => false
  | p :: ps, c :: cs => p == c && startsWithL ps cs

def containsSub (pat : List Nat) : List Nat → Bool
  | [] => pat.isEmpty
  | c :: cs => startsWithL pat (c :: cs) || containsSub pat cs

def utf8ReTest (s : String) : Bool :=
  let l := (s.data.map Char.toNat).map lowerCode
  containsSub [117, 116, 102, 56] l || containsSub [117, 116, 102, 45, 56] l

/-- The nine code points of the string `undefined`: on a decoder throw the
source still executes `this.stringBuffer += str` with `str` left `undefined`,
so the decoded-text log grows by this text. -/
def undefinedCodePoints : List Nat := [117, 110, 100, 101, 102, 105, 110, 101, 100]

/-- Result of an engine write: the new state plus errors emitted on the error
channel during the call. -/
structure WriteResult where
  e : HtmlInsertionStream
  errs : List Err
deriving DecidableEq, Repr

/-- The encoding test of `[internalWrite]`: a present, truthy encoding that
fails `/utf-?8/i`.  The `encoding` argument is `none` when absent or when a
callback function occupies the encoding position
(`typeof encoding !== 'function'`); an empty string is falsy in the source's
`encoding &&` test. -/
def badEncoding : Option String → Bool
  | some enc => !(enc == "") && !utf8ReTest enc
  | none => false

/-- `[internalWrite](data, encoding, isLast)`.  On a decoder throw the source
emits the error, appends `undefined` to `stringBuffer` and feeds `undefined`
to the parser (which yields no structural tokens), so the token list is not
processed there. -/
def internalWrite (e : HtmlInsertionStream) (data : List Nat) (encoding : Option String)
    (isLast : Bool) (tokens : List Token) : WriteResult :=
  if e.shouldParseHtml && badEncoding encoding then
    { e := e, errs := [Err.encodingErr] }
  else if data.length = 0 then { e := e, errs := [] }
  else
    let e1 := { e with len := e.len + data.length, buffers := e.buffers ++ [data] }
    match decodeBytes e1.pending data with
    | none =>
        { e := { e1 with stringBuffer := e1.stringBuffer ++ undefinedCodePoints, pending := [] }
          errs := [Err.decodeErr] }
    | some (cps, p2) =>
        if isLast && !p2.isEmpty then
          { e := { e1 with stringBuffer := e1.stringBuffer ++ undefinedCodePoints, pending := [] }
            errs := [Err.decodeErr] }
        else
          { e := processTokens { e1 with stringBuffer := e1.stringBuffer ++ cps, pending := p2 }
              tokens
            errs := [] }

/-- `write(data, encoding)`. -/
def write (e : HtmlInsertionStream) (data : List Nat) (encoding : Option String)
    (tokens : List Token) : WriteResult :=
  internalWrite e data encoding false tokens

/-- `writeLast(data, encoding)`. -/
def writeLast (e : HtmlInsertionStream) (data : List Nat) (encoding : Option String)
    (tokens : List Token) : WriteResult :=
  internalWrite e data encoding true tokens

/-- `[removeAnyTokenListeners]()`. -/
def removeAnyTokenListeners (e : HtmlInsertionStream) : HtmlInsertionStream :=
  { e with anyListenersOn := false }

end HtmlInsertionStream

/-- The engine state constructed by `main` for one response (constructor of
`HtmlInsertionStream` plus the initial `updateHeaders` outcome for
`shouldParseHtml`). -/
def initEngine (targetTagName : String) (insertionChunk : List Nat) (insertToEnd : Bool)
    (shouldParseHtml : Bool) : HtmlInsertionStream :=
  { buffers := []
    stringBuffer := []
    len := 0
    writableOffset := 0
    writtenOffset := 0
    shouldParseHtml := shouldParseHtml
    pending := []
    spliced := false
    anyListenersOn := true
    targetTagName := targetTagName
    insertionChunk := insertionChunk
    insertionLength := insertionChunk.length
    insertToEnd := insertToEnd }

/-! ### The response interception layer (`main`: patched `res.write`/`res.end`) -/

/-- State of one intercepted response: the engine, the bytes passed to the
original transport (`originalWrite`/`originalEnd`), the errors emitted on the
response, and whether the original methods have been restored (pass-through). -/
structure RState where
  e : HtmlInsertionStream
  out : List Nat
  errs : List Err
  passthrough : Bool
deriving DecidableEq, Repr

/-- One `res.write(data, encoding)` call; `tokens` are the tokenizer events
that fire synchronously while the decoded text is fed to the parser. -/
structure WriteCall where
  data : List Nat
  encoding : Option String
  tokens : List Token
deriving DecidableEq, Repr

/-- One `res.end([data][, encoding])` call (`data := none` when called with no
data argument or a callback only). -/
structure EndCall where
  data : Option (List Nat)
  encoding : Option String
  tokens : List Token
deriving DecidableEq, Repr

/-- The patched `res.write`: while HTML processing is active the data goes
through the engine and only the engine's writable prefix reaches the original
transport; otherwise the original methods are restored and the engine's
buffered chunks are flushed ahead of the new data
(`Buffer.concat([...parser.buffers.splice(0), data], parser.len + data.length)`;
note `parser.len` is not reset by the `splice`).  Engine errors are forwarded
to the response synchronously, where `res.prependListener('error',
restoreOriginalMethods)` restores the original `setHeader`/`write`/`end`, so a
call whose engine write errors leaves the response in pass-through: the
current call still finishes (`getWritableBuffer` runs and any released prefix
is written), but every later call bypasses the engine and its buffered
chunks. -/
def stepWrite (s : RState) (w : WriteCall) : RState :=
  if s.passthrough then { s with out := s.out ++ w.data }
  else if s.e.shouldParseHtml then
    let r := HtmlInsertionStream.write s.e w.data w.encoding w.tokens
    let pr := HtmlInsertionStream.getWritableBuffer r.e
    { s with
      e := pr.2
      out := s.out ++ pr.1
      errs := s.errs ++ r.errs
      passthrough := if r.errs.isEmpty then s.passthrough else true }
  else
    { e := { s.e with buffers := [] }
      out := s.out ++ bufConcat (s.e.buffers ++ [w.data]) (s.e.len + w.data.length)
      errs := s.errs
      passthrough := true }

/-- The patched `res.end`: restore the original methods, detach the
`[onAnyToken]` listeners, then either pass straight through (empty queue and
not HTML), or feed the final chunk (`writeLast` when HTML, `[push]` otherwise)
and send `[flush]()` to the original end. -/
def stepEnd (s : RState) (c : EndCall) : RState :=
  if s.passthrough then { s with out := s.out ++ c.data.getD [] }
  else
    let e0 := HtmlInsertionStream.removeAnyTokenListeners s.e
    if e0.buffers.length = 0 && !e0.shouldParseHtml then
      { s with e := e0, out := s.out ++ c.data.getD [], passthrough := true }
    else
      let data := c.data.getD []
      let r := if e0.shouldParseHtml then HtmlInsertionStream.writeLast e0 data c.encoding c.tokens
               else { e := HtmlInsertionStream.push e0 data, errs := [] }
      let pr := HtmlInsertionStream.flush r.e
      { e := pr.2, out := s.out ++ pr.1, errs := s.errs ++ r.errs, passthrough := true }

def runWrites : RState → List WriteCall → RState
  | s, [] => s
  | s, w :: ws => runWrites (stepWrite s w) ws

/-- A whole response body: a sequence of `res.write` calls then one `res.end`. -/
structure RunInput where
  writes : List WriteCall
  endCall : EndCall
deriving DecidableEq, Repr

def initRState (e : HtmlInsertionStream) : RState :=
  { e := e, out := [], errs := [], passthrough := false }

def runAll (e : HtmlInsertionStream) (inp : RunInput) : RState :=
  stepEnd (runWrites (initRState e) inp.writes) inp.endCall

/-- All body bytes of a run, in write order. -/
def allBytes (inp : RunInput) : List Nat :=
  flat (inp.writes.map WriteCall.data) ++ inp.endCall.data.getD []

/-! ### Header handling (`updateHeaders`, `adjustContentLength`,
`hasHtmlContentType`), modelled for the registration-time invocation with all
headers already set by the caller. -/

/-- A JS `content-length` header value as returned by `res.getHeader`: a number
that is an integer, a number for which `Number.isInteger` is false (`NaN`,
infinities, non-integral doubles), or a string. -/
inductive CLValue
  | numInt (n : Int)
  | numNonInt
  | str (s : String)
deriving DecidableEq, Repr

/-- Outcome for the `content-length` header. -/
inductive CLOut
  | removed
  | kept (v : CLValue)
  | setTo (s : String)
deriving DecidableEq, Repr

/-- `/\D/u` fails on `s`, i.e. every character is an ASCII digit (vacuously
true for the empty string). -/
def allDigits (s : String) : Bool :=
  s.data.all fun c => 48 ≤ c.toNat && c.toNat ≤ 57

def digitsVal : List Char → Nat → Nat
  | [], acc => acc
  | c :: cs, acc => digitsVal cs (acc * 10 + (c.toNat - 48))

/-- `parseInt(s, 10)` on an all-digit string; `none` models `NaN` (empty
string has no digits to parse). -/
def parseIntDigits (s : String) : Option Nat :=
  if s.data.isEmpty then none else some (digitsVal s.data 0)

/-- `adjustContentLength(originalContentLengthHeaderValue)` plus the final
conditional `originalSetHeader`.  Number path: `Number.isInteger` and
non-negativity; a same-valued number compares `===` to
`originalContentLength + insertionLength` exactly when the payload is empty.
String path: `/\D/u` test then `parseInt`; a string never compares `===` to a
number, so the header is always (re)set while HTML processing is active; the
empty string passes the `/\D/u` test and parses to `NaN`. -/
def adjustContentLength (shouldParseHtml : Bool) (v : CLValue) (P : Nat) : CLOut × List Err :=
  match v with
  | CLValue.numInt n =>
      if n < 0 then (CLOut.removed, [Err.contentLengthErr])
      else if shouldParseHtml && !(P == 0) then (CLOut.setTo (toString (n + (P : Int))), [])
      else (CLOut.kept v, [])
  | CLValue.numNonInt => (CLOut.removed, [Err.contentLengthErr])
  | CLValue.str s =>
      if !allDigits s then (CLOut.removed, [Err.contentLengthErr])
      else
        match parseIntDigits s with
        | none => if shouldParseHtml then (CLOut.setTo "NaN", []) else (CLOut.kept v, [])
        | some l => if shouldParseHtml then (CLOut.setTo (toString (l + P)), [])
                    else (CLOut.kept v, [])

/-- Character codes of a string. -/
def codesOf (s : String) : List Nat := s.data.map Char.toNat

/-- The media-type portion of a content-type header value: everything before
the first `;`. -/
def takeBeforeSemicolon : List Nat → List Nat
  | [] => []
  | c :: cs => if c == 59 then [] else c :: takeBeforeSemicolon cs

/-- Drop leading JS whitespace (tab through carriage return, and space; header
values are ASCII). -/
def dropSpaces : List Nat → List Nat
  | [] => []
  | c :: cs => if c == 32 || (9 ≤ c && c ≤ 13) then dropSpaces cs else c :: cs

/-- `String.prototype.trim`. -/
def trimCodes (l : List Nat) : List Nat :=
  ((dropSpaces (dropSpaces l).reverse)).reverse

/-- Character class of the `content-type` package's TYPE regular expression
(RFC 7230 token characters). -/
def isTokenCode (c : Nat) : Bool :=
  (48 ≤ c && c ≤ 57) || (65 ≤ c && c ≤ 90) || (97 ≤ c && c ≤ 122) ||
    c ∈ [33, 35, 36, 37, 38, 39, 42, 43, 45, 46, 94, 95, 96, 124, 126]

/-- Split at the first `/`. -/
def splitSlash : List Nat → Option (List Nat × List Nat)
  | [] => none
  | c :: cs =>
      if c == 47 then some ([], cs)
      else
        match splitSlash cs with
        | none => none
        | some (a, b) => some (c :: a, b)

/-- The TYPE regular expression: `token "/" token` (a second slash cannot
appear since `/` is not a token character). -/
def validMediaTypeCodes (t : List Nat) : Bool :=
  match splitSlash t with
  | some (a, b) => !a.isEmpty && a.all isTokenCode && !b.isEmpty && b.all isTokenCode
  | none => false

/-- `parseContentType(contentTypeHeader).type === 'text/html'`; an invalid
media type makes the parser throw, which is reported as a `TypeError` on the
response and yields `false` (parameters after `;` are ignored for the type,
and the parsed type is lower-cased). -/
def hasHtmlContentType (ct : String) : Bool × List Err :=
  let t := trimCodes (takeBeforeSemicolon (codesOf ct))
  if validMediaTypeCodes t then
    (t.map lowerCode == [116, 101, 120, 116, 47, 104, 116, 109, 108], [])
  else (false, [Err.contentTypeErr])

/-- The header state the interception layer manipulates. -/
structure Headers where
  contentType : Option String
  contentLength : Option CLValue
  etag : Option String
deriving DecidableEq, Repr

structure HeaderState where
  hdrs : Headers
  shouldParseHtml : Bool
  etagPending : Bool
deriving DecidableEq, Repr

/-- `updateHeaders()` at registration time (initial `shouldParseHtml` is
false, the etag suffix not yet consumed): decide HTML-ness from an existing
content-type, adjust an existing content-length, and append the payload hash
to an existing etag once HTML processing is confirmed. -/
def updateHeaders (h : Headers) (P : Nat) (etagSuffix : String) : HeaderState × List Err :=
  let ctRes := match h.contentType with
    | some ct => hasHtmlContentType ct
    | none => (false, [])
  let flag := ctRes.1
  let clRes : Option CLOut × List Err := match h.contentLength with
    | some v =>
        let r := adjustContentLength flag v P
        (some r.1, r.2)
    | none => (none, [])
  let newCl : Option CLValue := match clRes.1 with
    | none => h.contentLength
    | some CLOut.removed => none
    | some (CLOut.kept v) => some v
    | some (CLOut.setTo s) => some (CLValue.str s)
  let etagRes : Option String × Bool := match h.etag with
    | some tg => if etagSuffix.length ≠ 0 && flag then (some (tg ++ etagSuffix), false)
                 else (some tg, etagSuffix.length ≠ 0)
    | none => (none, etagSuffix.length ≠ 0)
  (⟨⟨h.contentType, newCl, etagRes.1⟩, flag, etagRes.2⟩, ctRes.2 ++ clRes.2)

/-! ### The tokenizer contract

Token events are inputs to a run; this decidable check captures what the real
tokenizer guarantees about them: offsets are code-point-aligned positions
within the text decoded so far, and tokens never lie before already-released
content.  A run is settled against these hypotheses only. -/

/-- Contract for one token fired while the decoded-text log is `log` and
`writtenOffset` bytes have already been released. -/
def tokenOk (log : List Nat) (writtenOffset : Nat) (t : Token) : Bool :=
  isAligned16 log t.startOffset && isAligned16 log t.endOffset &&
    decide (writtenOffset ≤ byteLen16 log t.startOffset) &&
    decide (writtenOffset ≤ byteLen16 log t.endOffset)

/-- The declared encoding of a write passes the source's UTF-8 test (or is
absent/falsy, in which case the source skips the check). -/
def encodingOk (encoding : Option String) : Bool :=
  !HtmlInsertionStream.badEncoding encoding

/-- Contract for one `res.write` call against the current state: tokens only
fire when decoded text was actually fed to the parser, they satisfy `tokenOk`
against the grown log, the declared encoding is acceptable and the chunk
decodes. -/
def checkWrite (s : RState) (w : WriteCall) : Bool :=
  if s.passthrough then w.tokens.isEmpty
  else if s.e.shouldParseHtml then
    encodingOk w.encoding &&
      (if w.data.length = 0 then w.tokens.isEmpty
       else
         match decodeBytes s.e.pending w.data with
         | none => false
         | some (cps, _) =>
             w.tokens.all (tokenOk (s.e.stringBuffer ++ cps) s.e.writtenOffset))
  else w.tokens.isEmpty

/-- Contract for the final `res.end` call; a nonempty final chunk must decode
completely (`decode` without the stream option). -/
def checkEnd (s : RState) (c : EndCall) : Bool :=
  if s.passthrough then c.tokens.isEmpty
  else if s.e.buffers.length = 0 && !s.e.shouldParseHtml then c.tokens.isEmpty
  else if s.e.shouldParseHtml then
    encodingOk c.encoding &&
      (if (c.data.getD []).length = 0 then c.tokens.isEmpty
       else
         match decodeBytes s.e.pending (c.data.getD []) with
         | some (cps, p2) =>
             p2.isEmpty &&
               c.tokens.all (tokenOk (s.e.stringBuffer ++ cps) s.e.writtenOffset)
         | none => false)
  else c.tokens.isEmpty

def checkRun : RState → List WriteCall → EndCall → Bool
  | s, [], c => checkEnd s c
  | s, w :: ws, c => checkWrite s w && checkRun (stepWrite s w) ws c

/-- The whole run respects the tokenizer contract. -/
def validRun (e : HtmlInsertionStream) (inp : RunInput) : Bool :=
  checkRun (initRState e) inp.writes inp.endCall

/-- Does this token trigger the insertion (`insertionEventName` with the
target tag name)? -/
def tokenMatches (insertToEnd : Bool) (target : String) (t : Token) : Bool :=
  (t.kind == (if insertToEnd then TKind.endTag else TKind.startTag)) && t.tagName == target

def firstMatchList (insertToEnd : Bool) (target : String) : List Token → Option Token
  | [] => none
  | t :: ts =>
      if tokenMatches insertToEnd target t then some t
      else firstMatchList insertToEnd target ts

/-- The first insertion-triggering token of a run, in event order. -/
def firstMatchRun (insertToEnd : Bool) (target : String) :
    List WriteCall → EndCall → Option Token
  | [], c => firstMatchList insertToEnd target c.tokens
  | w :: ws, c =>
      match firstMatchList insertToEnd target w.tokens with
      | some t => some t
      | none => firstMatchRun insertToEnd target ws c

/-- The boundary offset the splice uses: the close-tag token's start offset
when `insertToEnd`, the open-tag token's end offset otherwise. -/
def boundaryOf (insertToEnd : Bool) (t : Token) : Nat :=
  if insertToEnd then t.startOffset else t.endOffset

/-- The full decoded text of a byte stream (first component; empty on decode
failure, unused in that case). -/
def fullLogOf (bytes : List Nat) : List Nat :=
  match decodeBytes [] bytes with
  | some (cps, _) => cps
  | none => []

/-- A concrete engine state mid-response: the chunk `<body>` buffered and
fully decoded, nothing released yet. -/
def initTestEngine : HtmlInsertionStream :=
  { initEngine "body" [90] false true with
      buffers := [[60, 98, 111, 100, 121, 62]]
      stringBuffer := [60, 98, 111, 100, 121, 62]
      len := 6 }

/-- The open-tag token for that chunk. -/
def c9Token : Token := ⟨TKind.startTag, "body", 0, 6⟩

/-- A write whose bytes are fully committed by a text token. -/
def c6Write : WriteCall := ⟨[97, 98], none, [⟨TKind.text, "", 0, 2⟩]⟩

/-- A run delivering `<body>` in one write with its open-tag token. -/
def c1Input : RunInput :=
  { writes := [⟨[60, 98, 111, 100, 121, 62], none, [c9Token]⟩]
    endCall := ⟨none, none, []⟩ }

/-- A run delivering `<p>` in one write with no structural token. -/
def c2Input : RunInput :=
  { writes := [⟨[60, 112, 62], none, []⟩], endCall := ⟨none, none, []⟩ }

/-- The byte stream a run should deliver: the accepted bytes as such, or with
the payload spliced in at absolute byte position `k`. -/
def streamContent (acc payload : List Nat) : Option Nat → List Nat
  | none => acc
  | some k => acc.take k ++ payload ++ acc.drop k

/-- Invariant of an intercepted response between operations while HTML
processing is active and no splice has happened yet: `acc` is the
concatenation of all body bytes accepted so far.  The released prefix plus the
buffered queue reconstruct `acc`; the queue length counter is exact; the
released length equals `writtenOffset`; the decoded log and decoder state are
the streaming decode of `acc`; the released watermark is within the decoded
bytes; and the pending-release marker is clear (every write ends in a
`getWritableBuffer` call, which resets it). -/
def InvA (s : RState) (acc : List Nat) : Prop :=
  s.passthrough = false ∧
  s.e.spliced = false ∧
  s.e.shouldParseHtml = true ∧
  s.e.anyListenersOn = true ∧
  s.out ++ flat s.e.buffers = acc ∧
  s.e.len = (flat s.e.buffers).length ∧
  s.out.length = s.e.writtenOffset ∧
  decodeBytes [] acc = some (s.e.stringBuffer, s.e.pending) ∧
  pendOk s.e.pending = true ∧
  s.e.writtenOffset ≤ (utf8Encode s.e.stringBuffer).length ∧
  s.e.writableOffset = 0 ∧
  s.e.insertionLength = s.e.insertionChunk.length

/-- Invariant after the splice: the delivered prefix plus the remaining queue
reconstruct the accepted bytes with the payload inserted at absolute position
`k`; `k` is the UTF-8 byte length of the frozen decoded log up to the aligned
boundary offset `bnd`, and the frozen log is the streaming decode of a prefix
of the accepted bytes. -/
def InvB (s : RState) (acc : List Nat) (k bnd : Nat) : Prop :=
  s.e.spliced = true ∧
  s.e.shouldParseHtml = false ∧
  s.out ++ flat s.e.buffers = streamContent acc s.e.insertionChunk (some k) ∧
  (s.passthrough = false → s.e.len = (flat s.e.buffers).length) ∧
  (s.passthrough = true → s.e.buffers = []) ∧
  k ≤ acc.length ∧
  s.e.writtenOffset ≤ acc.length ∧
  s.e.writableOffset = 0 ∧
  isAligned16 s.e.stringBuffer bnd = true ∧
  k = byteLen16 s.e.stringBuffer bnd ∧
  (∃ accPre p2 rest, decodeBytes [] accPre = some (s.e.stringBuffer, p2) ∧
      accPre ++ rest = acc)

/-! ### Lemmas and theorems -/

theorem flat_append (a b : List (List Nat)) : flat (a ++ b) = flat a ++ flat b := by
  induction a with
  | nil => rfl
  | cons x xs ih => simp [flat, ih]

theorem bufConcat_eq_flat (bs : List (List Nat)) (n : Nat) (h : (flat bs).length = n) :
    bufConcat bs n = flat bs := by
  simp [bufConcat, h, List.take_of_length_le (le_of_eq h)]

theorem utf8Encode_append (a b : List Nat) :
    utf8Encode (a ++ b) = utf8Encode a ++ utf8Encode b := by
  induction a with
  | nil => rfl
  | cons x xs ih => simp [utf8Encode, ih]

theorem isAligned16_split (log : List Nat) (off : Nat) (h : isAligned16 log off = true) :
    ∃ l2, log = take16 log off ++ l2 ∧ utf16Len (take16 log off) = off := by
  induction log generalizing off with
  | nil =>
      cases off with
      | zero => exact ⟨[], rfl, rfl⟩
      | succ n => simp [isAligned16] at h
  | cons c cs ih =>
      cases off with
      | zero => exact ⟨c :: cs, rfl, rfl⟩
      | succ n =>
          simp only [isAligned16, Bool.and_eq_true, decide_eq_true_eq] at h
          obtain ⟨hle, hrec⟩ := h
          obtain ⟨l2, hsplit, hlen⟩ := ih (n + 1 - utf16LenC c) hrec
          refine ⟨l2, ?_, ?_⟩
          · simp only [take16, if_pos hle]
            simpa using congrArg (c :: ·) hsplit
          · simp only [take16, if_pos hle, utf16Len, hlen]
            have h1 : 1 ≤ utf16LenC c := by
              unfold utf16LenC; split <;> omega
            omega

/-- Extending the decoded-text log does not change an aligned prefix
(`substring(0, off)` of the grown `stringBuffer` is unchanged). -/
theorem take16_append_of_aligned (log ext : List Nat) (off : Nat)
    (h : isAligned16 log off = true) : take16 (log ++ ext) off = take16 log off := by
  induction log generalizing off with
  | nil =>
      cases off with
      | zero => simp [take16]
      | succ n => simp [isAligned16] at h
  | cons c cs ih =>
      cases off with
      | zero => simp [take16]
      | succ n =>
          simp only [isAligned16, Bool.and_eq_true, decide_eq_true_eq] at h
          obtain ⟨hle, hrec⟩ := h
          simp only [List.cons_append, take16, if_pos hle]
          exact congrArg (c :: ·) (ih (n + 1 - utf16LenC c) hrec)

theorem byteLen16_append_of_aligned (log ext : List Nat) (off : Nat)
    (h : isAligned16 log off = true) : byteLen16 (log ++ ext) off = byteLen16 log off := by
  unfold byteLen16
  rw [take16_append_of_aligned log ext off h]

theorem byteLen16_le_of_aligned (log : List Nat) (off : Nat)
    (h : isAligned16 log off = true) : byteLen16 log off ≤ (utf8Encode log).length := by
  obtain ⟨l2, hsplit, -⟩ := isAligned16_split log off h
  conv_rhs => rw [hsplit]
  rw [utf8Encode_append]
  simp [byteLen16]

theorem contOk_bounds (l b : Nat) (h : contOk l b = true) :
    (0x80 ≤ b ∧ b ≤ 0xBF) ∧ (l = 0xE0 → 0xA0 ≤ b) ∧ (l = 0xED → b ≤ 0x9F) ∧
      (l = 0xF0 → 0x90 ≤ b) ∧ (l = 0xF4 → b ≤ 0x8F) := by
  unfold contOk at h
  split_ifs at h with h1 h2 h3 h4 <;>
    simp only [Bool.and_eq_true, decide_eq_true_eq] at h <;> omega

theorem decodeStep_pendOk (pending : List Nat) (b : Nat) (out p2 : List Nat)
    (hp : pendOk pending = true) (h : decodeStep pending b = some (out, p2)) :
    pendOk p2 = true := by
  rcases pending with _ | ⟨l, _ | ⟨b1, _ | ⟨b2, rest⟩⟩⟩
  · simp only [decodeStep] at h
    split_ifs at h with h1 h2 h3 h4 <;>
      (injection h with h; injection h with ho hq; subst hq) <;>
      simp_all [pendOk]
  · simp only [decodeStep] at h
    split_ifs at h with h1 h2 <;>
      (injection h with h; injection h with ho hq; subst hq)
    · rfl
    · simp only [pendOk] at hp ⊢
      simp only [Bool.or_eq_true, Bool.and_eq_true, decide_eq_true_eq] at hp ⊢
      exact ⟨by omega, h1⟩
  · simp only [decodeStep] at h
    split_ifs at h with h1 h2 <;>
      (injection h with h; injection h with ho hq; subst hq)
    · rfl
    · simp only [pendOk] at hp ⊢
      simp only [Bool.or_eq_true, Bool.and_eq_true, decide_eq_true_eq] at hp ⊢
      simp only [Bool.and_eq_true, decide_eq_true_eq] at h1
      obtain ⟨hl, hc⟩ := hp
      exact ⟨⟨by omega, hc⟩, h1⟩
  · rcases rest with _ | ⟨b3, rest⟩
    · simp only [decodeStep] at h
      split_ifs at h with h1
      injection h with h; injection h with ho hq; subst hq
      rfl
    · simp [pendOk] at hp

theorem decodeStep_sound (pending : List Nat) (b : Nat) (out p2 : List Nat)
    (hp : pendOk pending = true) (h : decodeStep pending b = some (out, p2)) :
    utf8Encode out ++ p2 = pending ++ [b] := by
  rcases pending with _ | ⟨l, _ | ⟨b1, _ | ⟨b2, rest⟩⟩⟩
  · simp only [decodeStep] at h
    split_ifs at h with h1 h2 h3 h4 <;>
      (injection h with h; injection h with ho hq; subst ho; subst hq) <;>
      simp [utf8Encode, utf8EncodeChar, h1]
  · simp only [pendOk] at hp
    simp only [Bool.or_eq_true, Bool.and_eq_true, decide_eq_true_eq] at hp
    simp only [decodeStep] at h
    split_ifs at h with h1 h2 <;>
      (injection h with h; injection h with ho hq; subst ho; subst hq)
    · -- two-byte sequence completed
      obtain ⟨⟨hb1, hb2⟩, -⟩ := contOk_bounds l b h1
      have hl : 0xC2 ≤ l ∧ l ≤ 0xDF := by omega
      have hc1 : ¬ ((l - 0xC0) * 64 + (b - 0x80) < 0x80) := by omega
      have hc2 : (l - 0xC0) * 64 + (b - 0x80) < 0x800 := by omega
      simp only [utf8Encode, utf8EncodeChar, if_neg hc1, if_pos hc2, List.append_nil,
        List.nil_append, List.cons_append]
      have e1 : ((l - 0xC0) * 64 + (b - 0x80)) / 64 = l - 0xC0 := by omega
      have e2 : ((l - 0xC0) * 64 + (b - 0x80)) % 64 = b - 0x80 := by omega
      have g1 : 0xC0 + (l - 0xC0) = l := by omega
      have g2 : 0x80 + (b - 0x80) = b := by omega
      rw [e1, e2, g1, g2]

    · simp [utf8Encode]
  · simp only [pendOk] at hp
    simp only [Bool.or_eq_true, Bool.and_eq_true, decide_eq_true_eq] at hp
    obtain ⟨hl, hcont⟩ := hp
    simp only [decodeStep] at h
    simp only [Bool.and_eq_true, decide_eq_true_eq] at h
    split_ifs at h with h1 h2 <;>
      (injection h with h; injection h with ho hq; subst ho; subst hq)
    · -- three-byte sequence completed
      obtain ⟨⟨hc1a, hc1b⟩, he0, -, -, -⟩ := contOk_bounds l b1 hcont
      have hl3 : 0xE0 ≤ l ∧ l ≤ 0xEF := by omega
      set c := (l - 0xE0) * 4096 + (b1 - 0x80) * 64 + (b - 0x80) with hc
      have hn1 : ¬ (c < 0x80) := by omega
      have hn2 : ¬ (c < 0x800) := by omega
      have hn3 : c < 0x10000 := by omega
      simp only [utf8Encode, utf8EncodeChar, if_neg hn1, if_neg hn2, if_pos hn3,
        List.append_nil, List.nil_append, List.cons_append]
      have e1 : c / 4096 = l - 0xE0 := by omega
      have e2 : (c / 64) % 64 = b1 - 0x80 := by omega
      have e3 : c % 64 = b - 0x80 := by omega
      have g1 : 0xE0 + (l - 0xE0) = l := by omega
      have g2 : 0x80 + (b1 - 0x80) = b1 := by omega
      have g3 : 0x80 + (b - 0x80) = b := by omega
      rw [e1, e2, e3, g1, g2, g3]

    · simp [utf8Encode]
  · rcases rest with _ | ⟨b3, rest⟩
    · simp only [pendOk] at hp
      simp only [Bool.or_eq_true, Bool.and_eq_true, decide_eq_true_eq] at hp
      obtain ⟨⟨hl, hcont⟩, hb2⟩ := hp
      simp only [decodeStep] at h
      simp only [Bool.and_eq_true, decide_eq_true_eq] at h
      split_ifs at h with h1
      injection h with h; injection h with ho hq; subst ho; subst hq
      -- four-byte sequence completed
      obtain ⟨⟨hc1a, hc1b⟩, -, -, hf0, hf4⟩ := contOk_bounds l b1 hcont
      set c := (l - 0xF0) * 262144 + (b1 - 0x80) * 4096 + (b2 - 0x80) * 64 + (b - 0x80) with hc
      have hn1 : ¬ (c < 0x80) := by omega
      have hn2 : ¬ (c < 0x800) := by omega
      have hn3 : ¬ (c < 0x10000) := by omega
      simp only [utf8Encode, utf8EncodeChar, if_neg hn1, if_neg hn2, if_neg hn3,
        List.append_nil, List.nil_append, List.cons_append]
      have e1 : c / 262144 = l - 0xF0 := by omega
      have e2 : (c / 4096) % 64 = b1 - 0x80 := by omega
      have e3 : (c / 64) % 64 = b2 - 0x80 := by omega
      have e4 : c % 64 = b - 0x80 := by omega
      have g1 : 0xF0 + (l - 0xF0) = l := by omega
      have g2 : 0x80 + (b1 - 0x80) = b1 := by omega
      have g3 : 0x80 + (b2 - 0x80) = b2 := by omega
      have g4 : 0x80 + (b - 0x80) = b := by omega
      rw [e1, e2, e3, e4, g1, g2, g3, g4]

    · simp [pendOk] at hp

theorem decodeBytes_pendOk (pending bs : List Nat) (out p2 : List Nat)
    (hp : pendOk pending = true) (h : decodeBytes pending bs = some (out, p2)) :
    pendOk p2 = true := by
  induction bs generalizing pending out with
  | nil =>
      simp only [decodeBytes, Option.some.injEq, Prod.mk.injEq] at h
      obtain ⟨-, h2⟩ := h
      subst h2; exact hp
  | cons b bs ih =>
      cases hstep : decodeStep pending b with
      | none => simp [decodeBytes, hstep] at h
      | some pr =>
          obtain ⟨o1, q⟩ := pr
          cases hrec : decodeBytes q bs with
          | none => simp [decodeBytes, hstep, hrec] at h
          | some pr2 =>
              obtain ⟨o2, q2⟩ := pr2
              simp only [decodeBytes, hstep, hrec, Option.some.injEq, Prod.mk.injEq] at h
              obtain ⟨-, h2⟩ := h
              subst h2
              exact ih q o2 (decodeStep_pendOk pending b o1 q hp hstep) hrec

theorem decodeBytes_sound (pending bs : List Nat) (out p2 : List Nat)
    (hp : pendOk pending = true) (h : decodeBytes pending bs = some (out, p2)) :
    utf8Encode out ++ p2 = pending ++ bs := by
  induction bs generalizing pending out with
  | nil =>
      simp only [decodeBytes, Option.some.injEq, Prod.mk.injEq] at h
      obtain ⟨h1, h2⟩ := h
      subst h1; subst h2
      simp [utf8Encode]
  | cons b bs ih =>
      cases hstep : decodeStep pending b with
      | none => simp [decodeBytes, hstep] at h
      | some pr =>
          obtain ⟨o1, q⟩ := pr
          cases hrec : decodeBytes q bs with
          | none => simp [decodeBytes, hstep, hrec] at h
          | some pr2 =>
              obtain ⟨o2, q2⟩ := pr2
              simp only [decodeBytes, hstep, hrec, Option.some.injEq, Prod.mk.injEq] at h
              obtain ⟨h1, h2⟩ := h
              subst h1; subst h2
              have hq : pendOk q = true := decodeStep_pendOk pending b o1 q hp hstep
              have hs1 := decodeStep_sound pending b o1 q hp hstep
              have hs2 := ih q o2 hq hrec
              calc utf8Encode (o1 ++ o2) ++ q2
                  = utf8Encode o1 ++ (utf8Encode o2 ++ q2) := by
                    rw [utf8Encode_append]; simp
                _ = utf8Encode o1 ++ (q ++ bs) := by rw [hs2]
                _ = (utf8Encode o1 ++ q) ++ bs := by simp
                _ = (pending ++ [b]) ++ bs := by rw [hs1]
                _ = pending ++ b :: bs := by simp

/-- Streaming decode distributes over chunk concatenation: decoding the
concatenation equals decoding the chunks in sequence. -/
theorem decodeBytes_append (pending xs ys : List Nat) :
    decodeBytes pending (xs ++ ys) =
      match decodeBytes pending xs with
      | none => none
      | some (o1, q) =>
          match decodeBytes q ys with
          | none => none
          | some (o2, q2) => some (o1 ++ o2, q2) := by
  induction xs generalizing pending with
  | nil =>
      simp only [List.nil_append, decodeBytes]
      cases decodeBytes pending ys with
      | none => rfl
      | some pr => obtain ⟨o2, q2⟩ := pr; simp
  | cons x xs ih =>
      cases hstep : decodeStep pending x with
      | none => simp [decodeBytes, hstep]
      | some pr =>
          obtain ⟨o1, q⟩ := pr
          simp only [List.cons_append, decodeBytes, hstep, List.append_eq]
          rw [ih q]
          cases decodeBytes q xs with
          | none => rfl
          | some pr2 =>
              obtain ⟨o2, q2⟩ := pr2
              simp only []
              cases decodeBytes q2 ys with
              | none => rfl
              | some pr3 => obtain ⟨o3, q3⟩ := pr3; simp

/-! ### Simple engine facts and the first claims -/

theorem gwb_writableOffset_zero (e : HtmlInsertionStream) :
    (HtmlInsertionStream.getWritableBuffer e).2.writableOffset = 0 := by
  unfold HtmlInsertionStream.getWritableBuffer
  split
  · cases hrel : HtmlInsertionStream.releaseLoop e.buffers (e.writableOffset - e.writtenOffset) with
    | none => simp [hrel]
    | some pr => obtain ⟨rel, rest⟩ := pr; simp [hrel]
  · rename_i h
    simpa using h

/-- C4: calling `getWritableBuffer` twice in a row with no intervening accept
returns an empty buffer on the second call and leaves the engine state
unchanged: the first call resets the pending-release marker `writableOffset`
to zero in both of its branches, and a zero marker short-circuits the second
call. -/
theorem c4_getWritableBuffer_idempotent (e : HtmlInsertionStream) :
    HtmlInsertionStream.getWritableBuffer (HtmlInsertionStream.getWritableBuffer e).2 =
      ([], (HtmlInsertionStream.getWritableBuffer e).2) := by
  have h := gwb_writableOffset_zero e
  generalize (HtmlInsertionStream.getWritableBuffer e).2 = e2 at h
  unfold HtmlInsertionStream.getWritableBuffer
  simp [h]

/-- C8: when HTML processing is active and a write carries a declared encoding
that is not UTF-8-compatible (and not falsy), `[internalWrite]` returns before
any push or decode: exactly one `EncodingError` is emitted and the engine
state is completely unchanged, so the chunk is neither buffered, decoded, nor
fed to the tokenizer. -/
theorem c8_encoding_error_before_decode (e : HtmlInsertionStream) (data : List Nat)
    (enc : String) (isLast : Bool) (tokens : List Token)
    (h1 : e.shouldParseHtml = true) (h2 : enc ≠ "")
    (h3 : HtmlInsertionStream.utf8ReTest enc = false) :
    HtmlInsertionStream.internalWrite e data (some enc) isLast tokens =
      { e := e, errs := [Err.encodingErr] } := by
  unfold HtmlInsertionStream.internalWrite
  rw [h1]
  have hb : (enc == "") = false := by
    simpa using h2
  simp [HtmlInsertionStream.badEncoding, hb, h3]

theorem c8_witness :
    (initEngine "body" [] false true).shouldParseHtml = true ∧ "ascii" ≠ "" ∧
      HtmlInsertionStream.utf8ReTest "ascii" = false ∧
      HtmlInsertionStream.internalWrite (initEngine "body" [] false true) [65]
          (some "ascii") false [] =
        { e := initEngine "body" [] false true, errs := [Err.encodingErr] } :=
  ⟨by decide, by decide, by decide,
    c8_encoding_error_before_decode _ _ _ _ _ (by decide) (by decide) (by decide)⟩

/-- C10: accepting a zero-length chunk leaves the whole engine state (byte
queue, length counter, decoder state, decoded-text log, watermark and flags)
unchanged and fires no decode — in particular `writeLast` with an empty final
chunk skips the decode-completeness check and can emit no `DecodeError`, even
when an incomplete multi-byte sequence is still pending. -/
theorem c10_empty_chunk_noop (e : HtmlInsertionStream) (encoding : Option String)
    (isLast : Bool) (tokens : List Token) :
    (HtmlInsertionStream.internalWrite e [] encoding isLast tokens).e = e ∧
      Err.decodeErr ∉ (HtmlInsertionStream.internalWrite e [] encoding isLast tokens).errs := by
  unfold HtmlInsertionStream.internalWrite
  split
  · exact ⟨rfl, by simp⟩
  · simp

/-- C3 counterexample: an empty-string `content-length` is a non-integer
declared value, yet no `InvalidContentLength` error is raised and the header
is not removed: the `/\D/u` digit test passes vacuously, `parseInt` yields
`NaN`, and the outgoing header is set to the string `NaN`. -/
theorem c3_counterexample :
    adjustContentLength true (CLValue.str "") 1 = (CLOut.setTo "NaN", []) := by
  decide

/-- C3 amended: for an HTML-classified response, a declared numeric
content-length that is a non-negative integer `L` yields outgoing value
`L + P` (the header is rewritten when `P ≠ 0` and already equal otherwise);
a negative or non-integer number, or a string containing a non-digit
character, raises `InvalidContentLength` and removes the header; a digit-only
string yields `parseInt` of it plus `P`; the empty string passes validation
and yields a `NaN` header with no error. -/
theorem c3_amended_contentLength (P l : Nat) (n : Int) (s sd : String)
    (hn : n < 0) (hs : allDigits s = false) (hd : allDigits sd = true)
    (hne : sd.data ≠ []) :
    adjustContentLength true (CLValue.numInt (l : Int)) P =
        (if P = 0 then (CLOut.kept (CLValue.numInt (l : Int)), [])
         else (CLOut.setTo (toString ((l : Int) + (P : Int))), [])) ∧
      adjustContentLength true (CLValue.numInt n) P = (CLOut.removed, [Err.contentLengthErr]) ∧
      adjustContentLength true CLValue.numNonInt P = (CLOut.removed, [Err.contentLengthErr]) ∧
      adjustContentLength true (CLValue.str s) P = (CLOut.removed, [Err.contentLengthErr]) ∧
      adjustContentLength true (CLValue.str sd) P =
        (CLOut.setTo (toString (digitsVal sd.data 0 + P)), []) ∧
      adjustContentLength true (CLValue.str "") P = (CLOut.setTo "NaN", []) := by
  refine ⟨?_, ?_, ?_, ?_, ?_, ?_⟩
  · unfold adjustContentLength
    have h0 : ¬ ((l : Int) < 0) := by omega
    by_cases hP : P = 0 <;> simp [h0, hP]
  · unfold adjustContentLength
    simp [hn]
  · rfl
  · unfold adjustContentLength
    simp [hs]
  · unfold adjustContentLength
    unfold parseIntDigits
    simp [hd, hne]
  · have h1 : allDigits "" = true := by decide
    have h2 : parseIntDigits "" = none := by decide
    simp [adjustContentLength, h1, h2]

theorem c3_amended_witness :
    ((-100 : Int) < 0 ∧ allDigits "0_0" = false ∧ allDigits "12" = true ∧
        ("12").data ≠ []) ∧
      (adjustContentLength true (CLValue.numInt ((37 : Nat) : Int)) 16 =
          (if (16 : Nat) = 0 then (CLOut.kept (CLValue.numInt ((37 : Nat) : Int)), [])
           else (CLOut.setTo (toString (((37 : Nat) : Int) + ((16 : Nat) : Int))), [])) ∧
        adjustContentLength true (CLValue.numInt (-100)) 16 =
          (CLOut.removed, [Err.contentLengthErr]) ∧
        adjustContentLength true CLValue.numNonInt 16 = (CLOut.removed, [Err.contentLengthErr]) ∧
        adjustContentLength true (CLValue.str "0_0") 16 =
          (CLOut.removed, [Err.contentLengthErr]) ∧
        adjustContentLength true (CLValue.str "12") 16 =
          (CLOut.setTo (toString (digitsVal ("12").data 0 + 16)), []) ∧
        adjustContentLength true (CLValue.str "") 16 = (CLOut.setTo "NaN", [])) :=
  ⟨⟨by decide, by decide, by decide, by decide⟩,
    c3_amended_contentLength 16 37 (-100) "0_0" "12" (by decide) (by decide) (by decide)
      (by decide)⟩

/-- C6 counterexample: after a write whose bytes are fully committed by a text
token and then released by `getWritableBuffer`, the engine sits between
operations with `writtenOffset = 2` but `writableOffset = 0` (the source
reuses `writableOffset` as a pending-release marker and resets it), so the
claimed invariant `writtenOffset ≤ writableOffset` fails on a
contract-respecting run. -/
theorem c6_counterexample :
    validRun (initEngine "body" [90] false true)
        { writes := [c6Write], endCall := ⟨none, none, []⟩ } = true ∧
      ¬ ((runWrites (initRState (initEngine "body" [90] false true)) [c6Write]).e.writtenOffset ≤
          (runWrites (initRState (initEngine "body" [90] false true)) [c6Write]).e.writableOffset) := by
  decide

/-- C2 counterexample (header part): an HTML-classified response whose body
never contains the target tag still has its `content-length` header rewritten
at registration time (`1` becomes the string `2` for a 1-byte payload), so a
header is modified beyond what the caller set even though the body passes
through untouched. -/
theorem c2_counterexample :
    (updateHeaders ⟨some "text/html", some (CLValue.numInt 1), none⟩ 1 "x").1.hdrs ≠
      ⟨some "text/html", some (CLValue.numInt 1), none⟩ := by
  decide

/-! ### Splice and release lemmas -/

theorem take_append_le {α : Type} (a b : List α) (n : Nat) (h : n ≤ a.length) :
    (a ++ b).take n = a.take n := by
  rw [List.take_append_eq_append_take]
  have : n - a.length = 0 := by omega
  simp [this]

theorem drop_append_le {α : Type} (a b : List α) (n : Nat) (h : n ≤ a.length) :
    (a ++ b).drop n = a.drop n ++ b := by
  rw [List.drop_append_eq_append_drop]
  have : n - a.length = 0 := by omega
  simp [this]

theorem take_append_ge {α : Type} (a b : List α) (n : Nat) (h : a.length ≤ n) :
    (a ++ b).take n = a ++ b.take (n - a.length) := by
  rw [List.take_append_eq_append_take]
  simp [List.take_of_length_le h]

theorem drop_append_ge {α : Type} (a b : List α) (n : Nat) (h : a.length ≤ n) :
    (a ++ b).drop n = b.drop (n - a.length) := by
  rw [List.drop_append_eq_append_drop]
  simp [List.drop_of_length_le h]

/-- The `[onTag]` loop inserts the payload at flat position `idx` whenever the
index is within the buffered bytes and the queue is nonempty. -/
theorem spliceBuffers_flat (bufs : List (List Nat)) (idx : Nat) (payload : List Nat)
    (hne : bufs ≠ []) (hle : idx ≤ (flat bufs).length) :
    flat (HtmlInsertionStream.spliceBuffers bufs idx payload) =
      (flat bufs).take idx ++ payload ++ (flat bufs).drop idx := by
  induction bufs generalizing idx with
  | nil => exact absurd rfl hne
  | cons b bs ih =>
      by_cases hc : idx ≤ b.length
      · simp only [HtmlInsertionStream.spliceBuffers, if_pos hc, flat]
        rw [take_append_le b (flat bs) idx hc, drop_append_le b (flat bs) idx hc]
        simp
      · push_neg at hc
        simp only [HtmlInsertionStream.spliceBuffers, if_neg (by omega : ¬ idx ≤ b.length), flat]
        have hbs : bs ≠ [] := by
          intro hbs
          subst hbs
          simp only [flat, List.append_nil] at hle
          omega
        have hle2 : idx - b.length ≤ (flat bs).length := by
          simp only [flat, List.length_append] at hle
          omega
        rw [ih (idx - b.length) hbs hle2]
        rw [take_append_ge b (flat bs) idx (by omega), drop_append_ge b (flat bs) idx (by omega)]
        simp

/-- Structure of the `[onTag]` loop result: the queue decomposes as
`pre ++ chunk :: post` where `chunk` is the first chunk at which the running
total reaches or exceeds `idx` (every earlier prefix stays strictly below),
and that chunk is replaced in place by `[prefix, payload, suffix]` split at
the local offset. -/
theorem spliceBuffers_structure (bufs : List (List Nat)) (idx : Nat) (payload : List Nat)
    (hne : bufs ≠ []) (hle : idx ≤ (flat bufs).length) :
    ∃ pre b post,
      bufs = pre ++ b :: post ∧
      (flat pre).length ≤ idx ∧
      idx ≤ (flat pre).length + b.length ∧
      (∀ pre2 b2 post2, bufs = pre2 ++ b2 :: post2 → pre2.length < pre.length →
          (flat pre2).length + b2.length < idx) ∧
      HtmlInsertionStream.spliceBuffers bufs idx payload =
        pre ++ b.take (idx - (flat pre).length) :: payload ::
          b.drop (idx - (flat pre).length) :: post := by
  induction bufs generalizing idx with
  | nil => exact absurd rfl hne
  | cons b bs ih =>
      by_cases hc : idx ≤ b.length
      · refine ⟨[], b, bs, rfl, ?_, ?_, ?_, ?_⟩
        · simp [flat]
        · simp only [flat, List.length_nil]
          omega
        · intro pre2 b2 post2 _ hlt
          simp at hlt
        · simp only [HtmlInsertionStream.spliceBuffers, if_pos hc, flat]
          simp
      · push_neg at hc
        have hbs : bs ≠ [] := by
          intro hbs
          subst hbs
          simp only [flat, List.append_nil] at hle
          omega
        have hle2 : idx - b.length ≤ (flat bs).length := by
          simp only [flat, List.length_append] at hle
          omega
        obtain ⟨pre, bb, post, hsplit, hlo, hhi, hmin, hres⟩ := ih (idx - b.length) hbs hle2
        refine ⟨b :: pre, bb, post, by rw [hsplit]; rfl, ?_, ?_, ?_, ?_⟩
        · simp only [flat, List.length_append]
          omega
        · simp only [flat, List.length_append]
          omega
        · intro pre2 b2 post2 heq hlt
          cases pre2 with
          | nil =>
              simp only [List.nil_append, List.cons.injEq] at heq
              obtain ⟨hb2, -⟩ := heq
              subst hb2
              simp only [flat, List.length_nil]
              omega
          | cons p2 pre2t =>
              simp only [List.cons_append, List.cons.injEq] at heq
              obtain ⟨hp2, heqt⟩ := heq
              subst hp2
              have := hmin pre2t b2 post2 heqt (by simpa using hlt)
              simp only [flat, List.length_append]
              omega
        · simp only [HtmlInsertionStream.spliceBuffers, if_neg (by omega : ¬ idx ≤ b.length)]
          rw [hres]
          simp only [flat, List.length_append, List.cons_append]
          have harith : idx - b.length - (flat pre).length =
              idx - (b.length + (flat pre).length) := by omega
          rw [harith]

/-- Unconditional exactness of the `getWritableBuffer` loop: a successful walk
releases chunks totalling exactly `wlen` bytes and preserves the byte stream. -/
theorem releaseLoop_sound (bufs : List (List Nat)) (wlen : Nat)
    (rel rest : List (List Nat))
    (h : HtmlInsertionStream.releaseLoop bufs wlen = some (rel, rest)) :
    flat rel ++ flat rest = flat bufs ∧ (flat rel).length = wlen := by
  induction bufs generalizing wlen rel with
  | nil => simp [HtmlInsertionStream.releaseLoop] at h
  | cons b bs ih =>
      by_cases h1 : b.length = wlen
      · simp only [HtmlInsertionStream.releaseLoop, if_pos h1, Option.some.injEq,
          Prod.mk.injEq] at h
        obtain ⟨hr, hs⟩ := h
        subst hr; subst hs
        simp [flat, h1]
      · by_cases h2 : wlen < b.length
        · simp only [HtmlInsertionStream.releaseLoop, if_neg h1, if_pos h2, Option.some.injEq,
            Prod.mk.injEq] at h
          obtain ⟨hr, hs⟩ := h
          subst hr; subst hs
          constructor
          · simp only [flat, List.append_nil]
            rw [← List.append_assoc, List.take_append_drop]
          · simp only [flat, List.append_nil, List.length_take]
            omega
        · cases hrec : HtmlInsertionStream.releaseLoop bs (wlen - b.length) with
          | none =>
              simp only [HtmlInsertionStream.releaseLoop, if_neg h1, if_neg h2, hrec] at h
              exact Option.noConfusion h
          | some pr =>
              obtain ⟨rel2, rest2⟩ := pr
              simp only [HtmlInsertionStream.releaseLoop, if_neg h1, if_neg h2, hrec,
                Option.some.injEq, Prod.mk.injEq] at h
              obtain ⟨hr, hs⟩ := h
              subst hr; subst hs
              obtain ⟨ha, hb⟩ := ih (wlen - b.length) rel2 hrec
              constructor
              · simp only [flat, List.append_assoc, ha]
              · simp only [flat, List.length_append, hb]
                omega

/-- The `getWritableBuffer` loop succeeds whenever the watermark length fits in
the buffered bytes and the queue is nonempty. -/
theorem releaseLoop_some (bufs : List (List Nat)) (wlen : Nat)
    (hne : bufs ≠ []) (hle : wlen ≤ (flat bufs).length) :
    ∃ rel rest, HtmlInsertionStream.releaseLoop bufs wlen = some (rel, rest) := by
  induction bufs generalizing wlen with
  | nil => exact absurd rfl hne
  | cons b bs ih =>
      by_cases h1 : b.length = wlen
      · exact ⟨[b], bs, by simp [HtmlInsertionStream.releaseLoop, h1]⟩
      · by_cases h2 : wlen < b.length
        · refine ⟨[b.take wlen], b.drop wlen :: bs, ?_⟩
          simp [HtmlInsertionStream.releaseLoop, h1, h2]
        · have hbs : bs ≠ [] := by
            intro hbs
            subst hbs
            simp only [flat, List.append_nil] at hle
            omega
          have hle2 : wlen - b.length ≤ (flat bs).length := by
            simp only [flat, List.length_append] at hle
            omega
          obtain ⟨rel2, rest2, hrec⟩ := ih (wlen - b.length) hbs hle2
          exact ⟨b :: rel2, rest2, by simp [HtmlInsertionStream.releaseLoop, h1, h2, hrec]⟩

/-- C9: when the token matching the target tag fires, the splice computes
`insertionIndex` as the UTF-8 byte length of the decoded-text prefix up to the
boundary offset (the close-tag token's start offset when `insertToEnd`, the
open-tag token's end offset otherwise) minus `writtenOffset`, walks the chunk
queue to the first chunk at which the running total reaches or exceeds that
index (every strictly earlier split point stays below it), splits that chunk
at the index minus the running total before it, replaces it in place with
`[prefix, payload, suffix]`, and adds the payload length to the queue's
tracked total length. -/
theorem c9_onTag_splice (e : HtmlInsertionStream) (t : Token)
    (hmatch : t.tagName = e.targetTagName)
    (hlen : e.insertionLength = e.insertionChunk.length)
    (hne : e.buffers ≠ [])
    (hle : HtmlInsertionStream.insertionIndexOf e t ≤ (flat e.buffers).length) :
    (HtmlInsertionStream.onTag e t).len = e.len + e.insertionChunk.length ∧
      ∃ pre b post,
        e.buffers = pre ++ b :: post ∧
        (flat pre).length ≤ HtmlInsertionStream.insertionIndexOf e t ∧
        HtmlInsertionStream.insertionIndexOf e t ≤ (flat pre).length + b.length ∧
        (∀ pre2 b2 post2, e.buffers = pre2 ++ b2 :: post2 → pre2.length < pre.length →
            (flat pre2).length + b2.length < HtmlInsertionStream.insertionIndexOf e t) ∧
        (HtmlInsertionStream.onTag e t).buffers =
          pre ++
            b.take (HtmlInsertionStream.insertionIndexOf e t - (flat pre).length) ::
              e.insertionChunk ::
                b.drop (HtmlInsertionStream.insertionIndexOf e t - (flat pre).length) :: post := by
  constructor
  · unfold HtmlInsertionStream.onTag
    rw [if_pos hmatch]
    simpa using hlen
  · obtain ⟨pre, b, post, hsplit, hlo, hhi, hmin, hres⟩ :=
      spliceBuffers_structure e.buffers (HtmlInsertionStream.insertionIndexOf e t)
        e.insertionChunk hne hle
    refine ⟨pre, b, post, hsplit, hlo, hhi, hmin, ?_⟩
    unfold HtmlInsertionStream.onTag
    rw [if_pos hmatch]
    simpa using hres

theorem c9_witness :
    (("body" : String) = (initTestEngine).targetTagName ∧
        (initTestEngine).insertionLength = (initTestEngine).insertionChunk.length ∧
        (initTestEngine).buffers ≠ [] ∧
        HtmlInsertionStream.insertionIndexOf initTestEngine c9Token ≤
          (flat (initTestEngine).buffers).length) ∧
      ((HtmlInsertionStream.onTag initTestEngine c9Token).len =
          (initTestEngine).len + (initTestEngine).insertionChunk.length ∧
        ∃ pre b post,
          (initTestEngine).buffers = pre ++ b :: post ∧
          (flat pre).length ≤ HtmlInsertionStream.insertionIndexOf initTestEngine c9Token ∧
          HtmlInsertionStream.insertionIndexOf initTestEngine c9Token ≤
            (flat pre).length + b.length ∧
          (∀ pre2 b2 post2, (initTestEngine).buffers = pre2 ++ b2 :: post2 →
              pre2.length < pre.length →
              (flat pre2).length + b2.length <
                HtmlInsertionStream.insertionIndexOf initTestEngine c9Token) ∧
          (HtmlInsertionStream.onTag initTestEngine c9Token).buffers =
            pre ++
              b.take (HtmlInsertionStream.insertionIndexOf initTestEngine c9Token -
                  (flat pre).length) ::
                (initTestEngine).insertionChunk ::
                  b.drop (HtmlInsertionStream.insertionIndexOf initTestEngine c9Token -
                      (flat pre).length) :: post) :=
  ⟨⟨by decide, by decide, by decide, by decide⟩,
    c9_onTag_splice initTestEngine c9Token (by decide) (by decide) (by decide) (by decide)⟩

/-! ### Token processing: the mid-write engine invariant -/

theorem streamContent_append (acc payload d : List Nat) (k : Nat) (hk : k ≤ acc.length) :
    streamContent (acc ++ d) payload (some k) = streamContent acc payload (some k) ++ d := by
  simp only [streamContent]
  rw [take_append_le acc d k hk, drop_append_le acc d k hk]
  simp

theorem processTokens_spliced (m : HtmlInsertionStream) (ts : List Token)
    (h : m.spliced = true) : HtmlInsertionStream.processTokens m ts = m := by
  induction ts with
  | nil => rfl
  | cons t ts ih =>
      have hp : HtmlInsertionStream.processToken m t = m := by
        simp [HtmlInsertionStream.processToken, h]
      simp only [HtmlInsertionStream.processTokens, hp]
      exact ih

/-- Behavior of `processTokens` from a pre-splice mid-write state, under the
tokenizer contract: the decoded log, decoder state, released watermark and
configuration are untouched; without a matching token the queue is untouched
and only the pending-release marker moves (staying within the decoded bytes
and at or above the released watermark); the first matching token splices the
payload into the flat queue at the boundary's byte index relative to the
released prefix. -/
theorem processTokens_spec (ts : List Token) (m : HtmlInsertionStream) (out acc : List Nat)
    (hsp : m.spliced = false) (hph : m.shouldParseHtml = true)
    (hcontent : out ++ flat m.buffers = acc)
    (hlen : m.len = (flat m.buffers).length)
    (hout : out.length = m.writtenOffset)
    (hdec : decodeBytes [] acc = some (m.stringBuffer, m.pending))
    (hwr : m.writtenOffset ≤ (utf8Encode m.stringBuffer).length)
    (hwa : m.writableOffset = 0 ∨
      (m.writtenOffset ≤ m.writableOffset ∧
        m.writableOffset ≤ (utf8Encode m.stringBuffer).length))
    (hcfg : m.insertionLength = m.insertionChunk.length)
    (hne : m.buffers ≠ [])
    (hts : ts.all (tokenOk m.stringBuffer m.writtenOffset) = true) :
    (HtmlInsertionStream.processTokens m ts).stringBuffer = m.stringBuffer ∧
    (HtmlInsertionStream.processTokens m ts).pending = m.pending ∧
    (HtmlInsertionStream.processTokens m ts).writtenOffset = m.writtenOffset ∧
    (HtmlInsertionStream.processTokens m ts).targetTagName = m.targetTagName ∧
    (HtmlInsertionStream.processTokens m ts).insertToEnd = m.insertToEnd ∧
    (HtmlInsertionStream.processTokens m ts).insertionChunk = m.insertionChunk ∧
    (HtmlInsertionStream.processTokens m ts).insertionLength = m.insertionLength ∧
    ((HtmlInsertionStream.processTokens m ts).writableOffset = 0 ∨
      (m.writtenOffset ≤ (HtmlInsertionStream.processTokens m ts).writableOffset ∧
        (HtmlInsertionStream.processTokens m ts).writableOffset ≤
          (utf8Encode m.stringBuffer).length)) ∧
    (m.anyListenersOn = false →
      (HtmlInsertionStream.processTokens m ts).writableOffset = m.writableOffset) ∧
    (match firstMatchList m.insertToEnd m.targetTagName ts with
     | none =>
         (HtmlInsertionStream.processTokens m ts).spliced = false ∧
         (HtmlInsertionStream.processTokens m ts).shouldParseHtml = true ∧
         (HtmlInsertionStream.processTokens m ts).anyListenersOn = m.anyListenersOn ∧
         (HtmlInsertionStream.processTokens m ts).buffers = m.buffers ∧
         (HtmlInsertionStream.processTokens m ts).len = m.len
     | some t =>
         (HtmlInsertionStream.processTokens m ts).spliced = true ∧
         (HtmlInsertionStream.processTokens m ts).shouldParseHtml = false ∧
         isAligned16 m.stringBuffer (boundaryOf m.insertToEnd t) = true ∧
         m.writtenOffset ≤ byteLen16 m.stringBuffer (boundaryOf m.insertToEnd t) ∧
         byteLen16 m.stringBuffer (boundaryOf m.insertToEnd t) ≤
           (utf8Encode m.stringBuffer).length ∧
         flat (HtmlInsertionStream.processTokens m ts).buffers =
           (flat m.buffers).take
               (byteLen16 m.stringBuffer (boundaryOf m.insertToEnd t) - m.writtenOffset) ++
             m.insertionChunk ++
               (flat m.buffers).drop
                 (byteLen16 m.stringBuffer (boundaryOf m.insertToEnd t) - m.writtenOffset) ∧
         (HtmlInsertionStream.processTokens m ts).len =
           (flat (HtmlInsertionStream.processTokens m ts).buffers).length) := by
  induction ts generalizing m with
  | nil =>
      refine ⟨rfl, rfl, rfl, rfl, rfl, rfl, rfl, hwa, fun _ => rfl, ?_⟩
      simp only [firstMatchList]
      exact ⟨hsp, hph, rfl, rfl, rfl⟩
  | cons t ts ih =>
      simp only [List.all_cons, Bool.and_eq_true] at hts
      obtain ⟨htok, hts⟩ := hts
      simp only [tokenOk, Bool.and_eq_true, decide_eq_true_eq] at htok
      obtain ⟨⟨⟨halS, halE⟩, hbS⟩, hbE⟩ := htok
      -- the engine after the [onAnyToken] listener (attached or not)
      have hproc : HtmlInsertionStream.processTokens m (t :: ts) =
          HtmlInsertionStream.processTokens (HtmlInsertionStream.processToken m t) ts := rfl
      have he1f : ∀ e1, e1 = (if m.anyListenersOn then HtmlInsertionStream.onAnyToken m t
            else m) →
          e1.stringBuffer = m.stringBuffer ∧ e1.pending = m.pending ∧
          e1.writtenOffset = m.writtenOffset ∧ e1.targetTagName = m.targetTagName ∧
          e1.insertToEnd = m.insertToEnd ∧ e1.insertionChunk = m.insertionChunk ∧
          e1.insertionLength = m.insertionLength ∧ e1.buffers = m.buffers ∧
          e1.len = m.len ∧ e1.spliced = m.spliced ∧
          e1.shouldParseHtml = m.shouldParseHtml ∧ e1.anyListenersOn = m.anyListenersOn := by
        intro e1 he1
        subst he1
        split <;> simp [HtmlInsertionStream.onAnyToken]
      have he1w : ∀ e1, e1 = (if m.anyListenersOn then HtmlInsertionStream.onAnyToken m t
            else m) →
          e1.writableOffset = 0 ∨
            (m.writtenOffset ≤ e1.writableOffset ∧
              e1.writableOffset ≤ (utf8Encode m.stringBuffer).length) := by
        intro e1 he1
        subst he1
        split
        · right
          constructor
          · simpa [HtmlInsertionStream.onAnyToken] using hbE
          · simpa [HtmlInsertionStream.onAnyToken] using byteLen16_le_of_aligned _ _ halE
        · exact hwa
      have hstep : HtmlInsertionStream.processToken m t =
          (if t.kind = HtmlInsertionStream.insertionKind
              (if m.anyListenersOn then HtmlInsertionStream.onAnyToken m t else m) then
            HtmlInsertionStream.onTag
              (if m.anyListenersOn then HtmlInsertionStream.onAnyToken m t else m) t
          else (if m.anyListenersOn then HtmlInsertionStream.onAnyToken m t else m)) := by
        simp only [HtmlInsertionStream.processToken, hsp]
        rfl
      obtain ⟨hf1, hf2, hf3, hf4, hf5, hf6, hf7, hf8, hf9, hf10, hf11, hf12⟩ :=
        he1f _ rfl
      have hik : HtmlInsertionStream.insertionKind
          (if m.anyListenersOn then HtmlInsertionStream.onAnyToken m t else m) =
          HtmlInsertionStream.insertionKind m := by
        simp [HtmlInsertionStream.insertionKind, hf5]
      by_cases hmatch : t.kind = HtmlInsertionStream.insertionKind m ∧
          t.tagName = m.targetTagName
      · -- the insertion event for the target tag: [onTag] splices and stops
        obtain ⟨hkind, htag⟩ := hmatch
        have hfm : firstMatchList m.insertToEnd m.targetTagName (t :: ts) = some t := by
          have : tokenMatches m.insertToEnd m.targetTagName t = true := by
            simp only [tokenMatches, Bool.and_eq_true, beq_iff_eq]
            exact ⟨by simpa [HtmlInsertionStream.insertionKind] using hkind, htag⟩
          simp [firstMatchList, this]
        have htag1 : t.tagName =
            (if m.anyListenersOn then HtmlInsertionStream.onAnyToken m t else m).targetTagName := by
          rw [hf4]; exact htag
        have honTag : HtmlInsertionStream.processToken m t =
            { (if m.anyListenersOn then HtmlInsertionStream.onAnyToken m t else m) with
              spliced := true
              anyListenersOn := false
              shouldParseHtml := false
              buffers := HtmlInsertionStream.spliceBuffers
                (if m.anyListenersOn then HtmlInsertionStream.onAnyToken m t else m).buffers
                (HtmlInsertionStream.insertionIndexOf
                  (if m.anyListenersOn then HtmlInsertionStream.onAnyToken m t else m) t)
                (if m.anyListenersOn then HtmlInsertionStream.onAnyToken m t else m).insertionChunk
              len := (if m.anyListenersOn then HtmlInsertionStream.onAnyToken m t else m).len +
                (if m.anyListenersOn then HtmlInsertionStream.onAnyToken m t
                  else m).insertionLength } := by
          rw [hstep, if_pos (by rw [hik]; exact hkind)]
          unfold HtmlInsertionStream.onTag
          rw [if_pos htag1]
        have hidx : HtmlInsertionStream.insertionIndexOf
            (if m.anyListenersOn then HtmlInsertionStream.onAnyToken m t else m) t =
            byteLen16 m.stringBuffer (boundaryOf m.insertToEnd t) - m.writtenOffset := by
          unfold HtmlInsertionStream.insertionIndexOf boundaryOf
          rw [hf1, hf3, hf5]
        -- boundary facts
        have hal : isAligned16 m.stringBuffer (boundaryOf m.insertToEnd t) = true := by
          unfold boundaryOf
          split
          · exact halS
          · exact halE
        have hbnd : m.writtenOffset ≤ byteLen16 m.stringBuffer (boundaryOf m.insertToEnd t) := by
          unfold boundaryOf
          split
          · exact hbS
          · exact hbE
        have hble : byteLen16 m.stringBuffer (boundaryOf m.insertToEnd t) ≤
            (utf8Encode m.stringBuffer).length := byteLen16_le_of_aligned _ _ hal
        have hsound : utf8Encode m.stringBuffer ++ m.pending = acc := by
          have := decodeBytes_sound [] acc m.stringBuffer m.pending rfl hdec
          simpa using this
        have hacc : (utf8Encode m.stringBuffer).length ≤ acc.length := by
          have := congrArg List.length hsound
          simp only [List.length_append] at this
          omega
        have hflatlen : out.length + (flat m.buffers).length = acc.length := by
          have := congrArg List.length hcontent
          simpa using this
        have hidxle : byteLen16 m.stringBuffer (boundaryOf m.insertToEnd t) - m.writtenOffset ≤
            (flat m.buffers).length := by omega
        have hsplice := spliceBuffers_flat m.buffers
          (byteLen16 m.stringBuffer (boundaryOf m.insertToEnd t) - m.writtenOffset)
          m.insertionChunk hne hidxle
        have hsplLen : (flat (HtmlInsertionStream.spliceBuffers m.buffers
            (byteLen16 m.stringBuffer (boundaryOf m.insertToEnd t) - m.writtenOffset)
            m.insertionChunk)).length =
            (flat m.buffers).length + m.insertionChunk.length := by
          rw [hsplice]
          simp only [List.length_append, List.length_take, List.length_drop]
          omega
        have hspl : (HtmlInsertionStream.processToken m t).spliced = true := by
          rw [honTag]
        rw [hproc, processTokens_spliced _ _ hspl]
        rw [honTag]
        refine ⟨by simp [hf1], by simp [hf2], by simp [hf3], by simp [hf4], by simp [hf5],
          by simp [hf6], by simp [hf7], ?_, ?_, ?_⟩
        · simpa using he1w _ rfl
        · intro hano
          simp [hano]
        · rw [hfm]
          refine ⟨rfl, rfl, hal, hbnd, hble, ?_, ?_⟩
          · simp only [hidx, hf8, hf6]
            exact hsplice
          · simp only [hidx, hf8, hf6, hf9, hf7, hsplLen, hlen, hcfg]
      · -- not the insertion event for the target tag: at most the watermark moves
        have hne1 : HtmlInsertionStream.processToken m t =
            (if m.anyListenersOn then HtmlInsertionStream.onAnyToken m t else m) := by
          rw [hstep]
          by_cases hkind : t.kind = HtmlInsertionStream.insertionKind m
          · rw [if_pos (by rw [hik]; exact hkind)]
            unfold HtmlInsertionStream.onTag
            rw [if_neg]
            rw [hf4]
            intro htag
            exact hmatch ⟨hkind, htag⟩
          · rw [if_neg (by rw [hik]; exact hkind)]
        have hfm : firstMatchList m.insertToEnd m.targetTagName (t :: ts) =
            firstMatchList m.insertToEnd m.targetTagName ts := by
          have : tokenMatches m.insertToEnd m.targetTagName t = false := by
            rw [Bool.eq_false_iff]
            intro hc
            simp only [tokenMatches, Bool.and_eq_true, beq_iff_eq] at hc
            exact hmatch ⟨by simpa [HtmlInsertionStream.insertionKind] using hc.1, hc.2⟩
          simp [firstMatchList, this]
        rw [hproc, hne1]
        have hconc := ih (if m.anyListenersOn then HtmlInsertionStream.onAnyToken m t else m)
          (by rw [hf10]; exact hsp) (by rw [hf11]; exact hph)
          (by rw [hf8]; exact hcontent) (by rw [hf9, hf8]; exact hlen)
          (by rw [hf3]; exact hout) (by rw [hf1, hf2]; exact hdec)
          (by rw [hf3, hf1]; exact hwr)
          (by rw [hf3, hf1]; exact he1w _ rfl)
          (by rw [hf7, hf6]; exact hcfg) (by rw [hf8]; exact hne)
          (by rw [hf1, hf3]; exact hts)
        rw [hf1, hf2, hf3, hf4, hf5, hf6, hf7] at hconc
        obtain ⟨hc1, hc2, hc3, hc4, hc5, hc6, hc7, hc8, hcW, hc9⟩ := hconc
        refine ⟨hc1, hc2, hc3, hc4, hc5, hc6, hc7, hc8, ?_, ?_⟩
        · intro hano
          rw [hcW (by rw [hf12]; exact hano)]
          simp [hano]
        · rw [hfm]
          cases hcase : firstMatchList m.insertToEnd m.targetTagName ts with
          | none =>
              rw [hcase] at hc9
              obtain ⟨hd1, hd2, hd3, hd4, hd5⟩ := hc9
              exact ⟨hd1, hd2, by rw [hd3, hf12], by rw [hd4, hf8], by rw [hd5, hf9]⟩
          | some tm =>
              rw [hcase] at hc9
              obtain ⟨hd1, hd2, hd3, hd4, hd5, hd6, hd7⟩ := hc9
              exact ⟨hd1, hd2, hd3, hd4, hd5, by rw [hd6, hf8], hd7⟩

/-- Full specification of `getWritableBuffer` under the watermark hypotheses
that hold at its call sites: the released buffer plus the remaining queue
reconstruct the old queue, the watermark bookkeeping is exact, the marker is
reset, and every other field is untouched. -/
theorem getWritableBuffer_spec (e : HtmlInsertionStream)
    (hwa : e.writableOffset = 0 ∨ (e.writtenOffset ≤ e.writableOffset ∧
        e.writableOffset - e.writtenOffset ≤ (flat e.buffers).length)) :
    (HtmlInsertionStream.getWritableBuffer e).1 ++
        flat (HtmlInsertionStream.getWritableBuffer e).2.buffers = flat e.buffers ∧
    (HtmlInsertionStream.getWritableBuffer e).2.writtenOffset =
      e.writtenOffset + (HtmlInsertionStream.getWritableBuffer e).1.length ∧
    ((HtmlInsertionStream.getWritableBuffer e).2.writtenOffset = e.writtenOffset ∨
      (HtmlInsertionStream.getWritableBuffer e).2.writtenOffset = e.writableOffset) ∧
    (HtmlInsertionStream.getWritableBuffer e).2.writableOffset = 0 ∧
    (HtmlInsertionStream.getWritableBuffer e).2.len =
      e.len - (HtmlInsertionStream.getWritableBuffer e).1.length ∧
    (HtmlInsertionStream.getWritableBuffer e).2.stringBuffer = e.stringBuffer ∧
    (HtmlInsertionStream.getWritableBuffer e).2.pending = e.pending ∧
    (HtmlInsertionStream.getWritableBuffer e).2.spliced = e.spliced ∧
    (HtmlInsertionStream.getWritableBuffer e).2.shouldParseHtml = e.shouldParseHtml ∧
    (HtmlInsertionStream.getWritableBuffer e).2.anyListenersOn = e.anyListenersOn ∧
    (HtmlInsertionStream.getWritableBuffer e).2.targetTagName = e.targetTagName ∧
    (HtmlInsertionStream.getWritableBuffer e).2.insertToEnd = e.insertToEnd ∧
    (HtmlInsertionStream.getWritableBuffer e).2.insertionChunk = e.insertionChunk ∧
    (HtmlInsertionStream.getWritableBuffer e).2.insertionLength = e.insertionLength := by
  by_cases h0 : e.writableOffset = 0
  · unfold HtmlInsertionStream.getWritableBuffer
    rw [if_neg (by simpa using h0)]
    simp [h0]
  · have hwa2 : e.writtenOffset ≤ e.writableOffset ∧
        e.writableOffset - e.writtenOffset ≤ (flat e.buffers).length := by
      rcases hwa with h | h
      · exact absurd h h0
      · exact h
    unfold HtmlInsertionStream.getWritableBuffer
    rw [if_pos (by simpa using h0)]
    cases hrel : HtmlInsertionStream.releaseLoop e.buffers
        (e.writableOffset - e.writtenOffset) with
    | none =>
        have hbufs : e.buffers = [] := by
          by_contra hne
          obtain ⟨rel, rest, hsome⟩ :=
            releaseLoop_some e.buffers (e.writableOffset - e.writtenOffset) hne hwa2.2
          rw [hsome] at hrel
          exact Option.noConfusion hrel
        have hwlen : e.writableOffset - e.writtenOffset = 0 := by
          have := hwa2.2
          rw [hbufs] at this
          simpa [flat] using this
        simp only [hrel]
        refine ⟨by simp [hbufs], by simp; omega, ?_, by simp, by simp; omega, by simp, by simp,
          by simp, by simp, by simp, by simp, by simp, by simp, by simp⟩
        right
        simp
    | some pr =>
        obtain ⟨rel, rest⟩ := pr
        obtain ⟨hcontent, hexact⟩ := releaseLoop_sound e.buffers
          (e.writableOffset - e.writtenOffset) rel rest hrel
        have hbc : bufConcat rel (e.writableOffset - e.writtenOffset) = flat rel :=
          bufConcat_eq_flat rel _ hexact
        simp only [hrel, hbc]
        refine ⟨by simpa using hcontent, ?_, ?_, by simp, by simp [hexact], by simp, by simp,
          by simp, by simp, by simp, by simp, by simp, by simp, by simp⟩
        · omega
        · right
          simp

theorem encodingOk_skip (b : Bool) (enc : Option String) (h : encodingOk enc = true) :
    (b && HtmlInsertionStream.badEncoding enc) = false := by
  unfold encodingOk at h
  simp only [Bool.not_eq_true'] at h
  simp [h]

/-- `[flush]` returns the concatenation of the queue whenever the tracked
length is exact (the single-chunk branch returns that chunk, which is its own
concatenation). -/
theorem flush_eq_flat (e : HtmlInsertionStream) (h : e.len = (flat e.buffers).length) :
    (HtmlInsertionStream.flush e).1 = flat e.buffers := by
  unfold HtmlInsertionStream.flush
  split
  · rename_i h1
    cases hb : e.buffers with
    | nil => simp [hb] at h1
    | cons b bs =>
        cases bs with
        | nil => simp [hb, flat]
        | cons b2 bs2 => simp [hb] at h1
  · exact bufConcat_eq_flat _ _ (by omega)

/-- One intercepted `res.write` from a pre-splice HTML state: without a
matching token the state invariant is maintained over the grown byte stream;
the first matching token moves the response to the post-splice invariant, the
splice position being the byte length of the decoded log up to the token's
boundary offset. -/
theorem stepWrite_A (s : RState) (acc : List Nat) (w : WriteCall)
    (hinv : InvA s acc) (hchk : checkWrite s w = true) :
    (stepWrite s w).errs = s.errs ∧
    (stepWrite s w).e.targetTagName = s.e.targetTagName ∧
    (stepWrite s w).e.insertToEnd = s.e.insertToEnd ∧
    (stepWrite s w).e.insertionChunk = s.e.insertionChunk ∧
    (match firstMatchList s.e.insertToEnd s.e.targetTagName w.tokens with
     | none => InvA (stepWrite s w) (acc ++ w.data)
     | some t => ∃ k, InvB (stepWrite s w) (acc ++ w.data) k
         (boundaryOf s.e.insertToEnd t)) := by
  obtain ⟨hpt, hsp, hph, han, hcontent, hlen, hout, hdec, hpend, hwr, hwa0, hcfg⟩ := hinv
  have hstep : stepWrite s w =
      { s with
        e := (HtmlInsertionStream.getWritableBuffer
          (HtmlInsertionStream.write s.e w.data w.encoding w.tokens).e).2
        out := s.out ++ (HtmlInsertionStream.getWritableBuffer
          (HtmlInsertionStream.write s.e w.data w.encoding w.tokens).e).1
        errs := s.errs ++ (HtmlInsertionStream.write s.e w.data w.encoding w.tokens).errs
        passthrough :=
          if (HtmlInsertionStream.write s.e w.data w.encoding w.tokens).errs.isEmpty then
            s.passthrough
          else true } := by
    unfold stepWrite
    rw [if_neg (by simp [hpt]), if_pos (by simp [hph])]
  have hchk2 : encodingOk w.encoding = true ∧
      (if w.data.length = 0 then w.tokens.isEmpty
       else
         match decodeBytes s.e.pending w.data with
         | none => false
         | some (cps, _) =>
             w.tokens.all (tokenOk (s.e.stringBuffer ++ cps) s.e.writtenOffset)) = true := by
    have : checkWrite s w =
        (encodingOk w.encoding &&
          (if w.data.length = 0 then w.tokens.isEmpty
           else
             match decodeBytes s.e.pending w.data with
             | none => false
             | some (cps, _) =>
                 w.tokens.all (tokenOk (s.e.stringBuffer ++ cps) s.e.writtenOffset))) := by
      unfold checkWrite
      rw [if_neg (by simp [hpt]), if_pos (by simp [hph])]
    rw [this, Bool.and_eq_true] at hchk
    exact hchk
  obtain ⟨henc, hchk3⟩ := hchk2
  by_cases hdata : w.data.length = 0
  · -- empty chunk: nothing pushed, nothing decoded, no tokens, no release
    rw [if_pos hdata] at hchk3
    have htk : w.tokens = [] := by simpa using hchk3
    have hwrite : HtmlInsertionStream.write s.e w.data w.encoding w.tokens =
        ⟨s.e, []⟩ := by
      unfold HtmlInsertionStream.write HtmlInsertionStream.internalWrite
      rw [if_neg (by rw [encodingOk_skip s.e.shouldParseHtml w.encoding henc]; simp),
        if_pos hdata]
    have hgwb : HtmlInsertionStream.getWritableBuffer s.e = ([], s.e) := by
      unfold HtmlInsertionStream.getWritableBuffer
      rw [if_neg (by simp [hwa0])]
    have hdata2 : w.data = [] := List.length_eq_zero.mp hdata
    rw [hstep, hwrite, hgwb, htk, hdata2]
    simp only [firstMatchList, List.append_nil]
    refine ⟨by trivial, by trivial, by trivial, by trivial, ?_⟩
    exact ⟨hpt, hsp, hph, han, hcontent, hlen, hout, hdec, hpend, hwr, hwa0, hcfg⟩
  · -- nonempty chunk: push, decode, feed the tokenizer, release
    rw [if_neg hdata] at hchk3
    cases hdecw : decodeBytes s.e.pending w.data with
    | none => rw [hdecw] at hchk3; exact absurd hchk3 (by simp)
    | some pr =>
        obtain ⟨cps, p2⟩ := pr
        rw [hdecw] at hchk3
        have htoks : w.tokens.all
            (tokenOk (s.e.stringBuffer ++ cps) s.e.writtenOffset) = true := hchk3
        -- the engine mid-write, after push and decode
        have hwrite : HtmlInsertionStream.write s.e w.data w.encoding w.tokens =
            ⟨HtmlInsertionStream.processTokens
              { buffers := s.e.buffers ++ [w.data]
                stringBuffer := s.e.stringBuffer ++ cps
                len := s.e.len + w.data.length
                writableOffset := s.e.writableOffset
                writtenOffset := s.e.writtenOffset
                shouldParseHtml := s.e.shouldParseHtml
                pending := p2
                spliced := s.e.spliced
                anyListenersOn := s.e.anyListenersOn
                targetTagName := s.e.targetTagName
                insertionChunk := s.e.insertionChunk
                insertionLength := s.e.insertionLength
                insertToEnd := s.e.insertToEnd } w.tokens, []⟩ := by
          unfold HtmlInsertionStream.write HtmlInsertionStream.internalWrite
          rw [if_neg (by rw [encodingOk_skip s.e.shouldParseHtml w.encoding henc]; simp),
            if_neg hdata]
          simp only [hdecw]
          simp
        have hdec2 : decodeBytes [] (acc ++ w.data) = some (s.e.stringBuffer ++ cps, p2) := by
          rw [decodeBytes_append, hdec]
          simp [hdecw]
        have hsound2 : utf8Encode (s.e.stringBuffer ++ cps) ++ p2 = acc ++ w.data := by
          simpa using decodeBytes_sound [] (acc ++ w.data) _ _ rfl hdec2
        have hacc2 : (utf8Encode (s.e.stringBuffer ++ cps)).length ≤ acc.length +
            w.data.length := by
          have := congrArg List.length hsound2
          simp only [List.length_append] at this
          omega
        have hcont2 : s.out ++ flat (s.e.buffers ++ [w.data]) = acc ++ w.data := by
          simp only [flat_append, flat, List.append_nil]
          rw [← List.append_assoc, hcontent]
        have hflatlen2 : s.out.length + (flat (s.e.buffers ++ [w.data])).length =
            acc.length + w.data.length := by
          have := congrArg List.length hcont2
          simpa using this
        have hpend2 : pendOk p2 = true :=
          decodeBytes_pendOk s.e.pending w.data cps p2 hpend hdecw
        have hwr2 : s.e.writtenOffset ≤ (utf8Encode (s.e.stringBuffer ++ cps)).length := by
          rw [utf8Encode_append]
          simp only [List.length_append]
          omega
        have hspec := processTokens_spec w.tokens
          { buffers := s.e.buffers ++ [w.data]
            stringBuffer := s.e.stringBuffer ++ cps
            len := s.e.len + w.data.length
            writableOffset := s.e.writableOffset
            writtenOffset := s.e.writtenOffset
            shouldParseHtml := s.e.shouldParseHtml
            pending := p2
            spliced := s.e.spliced
            anyListenersOn := s.e.anyListenersOn
            targetTagName := s.e.targetTagName
            insertionChunk := s.e.insertionChunk
            insertionLength := s.e.insertionLength
            insertToEnd := s.e.insertToEnd }
          s.out (acc ++ w.data) hsp hph hcont2
          (by simp only [flat_append, flat, List.append_nil, List.length_append]
              omega)
          hout hdec2 hwr2 (Or.inl hwa0) hcfg (by simp) htoks
        -- restate the spec conclusions against the primitive fields
        set M : HtmlInsertionStream := HtmlInsertionStream.processTokens
          { buffers := s.e.buffers ++ [w.data]
            stringBuffer := s.e.stringBuffer ++ cps
            len := s.e.len + w.data.length
            writableOffset := s.e.writableOffset
            writtenOffset := s.e.writtenOffset
            shouldParseHtml := s.e.shouldParseHtml
            pending := p2
            spliced := s.e.spliced
            anyListenersOn := s.e.anyListenersOn
            targetTagName := s.e.targetTagName
            insertionChunk := s.e.insertionChunk
            insertionLength := s.e.insertionLength
            insertToEnd := s.e.insertToEnd } w.tokens with hM
        obtain ⟨hq1, hq2, hq3, hq4, hq5, hq6, hq7, hq8, hqW, hq9⟩ := hspec
        have hq1 : M.stringBuffer = s.e.stringBuffer ++ cps := hq1
        have hq2 : M.pending = p2 := hq2
        have hq3 : M.writtenOffset = s.e.writtenOffset := hq3
        have hq4 : M.targetTagName = s.e.targetTagName := hq4
        have hq5 : M.insertToEnd = s.e.insertToEnd := hq5
        have hq6 : M.insertionChunk = s.e.insertionChunk := hq6
        have hq7 : M.insertionLength = s.e.insertionLength := hq7
        have hq8 : M.writableOffset = 0 ∨
            (s.e.writtenOffset ≤ M.writableOffset ∧
              M.writableOffset ≤ (utf8Encode (s.e.stringBuffer ++ cps)).length) := hq8
        have hq9 : (match firstMatchList s.e.insertToEnd s.e.targetTagName w.tokens with
           | none =>
               M.spliced = false ∧ M.shouldParseHtml = true ∧
               M.anyListenersOn = s.e.anyListenersOn ∧
               M.buffers = s.e.buffers ++ [w.data] ∧
               M.len = s.e.len + w.data.length
           | some t =>
               M.spliced = true ∧ M.shouldParseHtml = false ∧
               isAligned16 (s.e.stringBuffer ++ cps) (boundaryOf s.e.insertToEnd t) = true ∧
               s.e.writtenOffset ≤
                 byteLen16 (s.e.stringBuffer ++ cps) (boundaryOf s.e.insertToEnd t) ∧
               byteLen16 (s.e.stringBuffer ++ cps) (boundaryOf s.e.insertToEnd t) ≤
                 (utf8Encode (s.e.stringBuffer ++ cps)).length ∧
               flat M.buffers =
                 (flat (s.e.buffers ++ [w.data])).take
                     (byteLen16 (s.e.stringBuffer ++ cps) (boundaryOf s.e.insertToEnd t) -
                       s.e.writtenOffset) ++
                   s.e.insertionChunk ++
                     (flat (s.e.buffers ++ [w.data])).drop
                       (byteLen16 (s.e.stringBuffer ++ cps) (boundaryOf s.e.insertToEnd t) -
                         s.e.writtenOffset) ∧
               M.len = (flat M.buffers).length) := hq9
        have hstep2 : stepWrite s w =
            { s with
              e := (HtmlInsertionStream.getWritableBuffer M).2
              out := s.out ++ (HtmlInsertionStream.getWritableBuffer M).1
              errs := s.errs } := by
          rw [hstep, hwrite]
          simp
        cases hfm : firstMatchList s.e.insertToEnd s.e.targetTagName w.tokens with
        | none =>
            rw [hfm] at hq9
            obtain ⟨hn1, hn2, hn3, hn4, hn5⟩ := hq9
            have hflatM : (flat M.buffers).length = acc.length + w.data.length -
                s.e.writtenOffset := by
              rw [hn4]
              omega
            have hrel := getWritableBuffer_spec M
              (by
                rcases hq8 with h | ⟨ha, hb⟩
                · exact Or.inl h
                · right
                  refine ⟨by rw [hq3]; exact ha, ?_⟩
                  rw [hq3, hflatM]
                  omega)
            obtain ⟨hr1, hr2, hr3, hr4, hr5, hr6, hr7, hr8, hr9, hr10, hr11, hr12, hr13,
              hr14⟩ := hrel
            rw [hstep2]
            refine ⟨rfl, hr11.trans hq4, hr12.trans hq5, hr13.trans hq6, ?_⟩
            refine ⟨hpt, hr8.trans hn1, hr9.trans hn2, hr10.trans (hn3.trans han), ?_, ?_,
              ?_, ?_, ?_, ?_, hr4, ?_⟩
            · show s.out ++ (HtmlInsertionStream.getWritableBuffer M).1 ++
                  flat (HtmlInsertionStream.getWritableBuffer M).2.buffers = acc ++ w.data
              rw [List.append_assoc, hr1, hn4]
              exact hcont2
            · show (HtmlInsertionStream.getWritableBuffer M).2.len =
                  (flat (HtmlInsertionStream.getWritableBuffer M).2.buffers).length
              have h1 := congrArg List.length hr1
              simp only [List.length_append] at h1
              rw [hn4] at h1
              rw [hr5, hn5]
              have h2 : (flat (s.e.buffers ++ [w.data])).length =
                  (flat s.e.buffers).length + w.data.length := by
                simp [flat_append, flat]
              rw [h2] at h1
              omega
            · show (s.out ++ (HtmlInsertionStream.getWritableBuffer M).1).length =
                  (HtmlInsertionStream.getWritableBuffer M).2.writtenOffset
              rw [List.length_append, hr2, hq3]
              omega
            · show decodeBytes [] (acc ++ w.data) =
                  some ((HtmlInsertionStream.getWritableBuffer M).2.stringBuffer,
                    (HtmlInsertionStream.getWritableBuffer M).2.pending)
              rw [hr6, hr7, hq1, hq2]
              exact hdec2
            · show pendOk (HtmlInsertionStream.getWritableBuffer M).2.pending = true
              rw [hr7, hq2]
              exact hpend2
            · show (HtmlInsertionStream.getWritableBuffer M).2.writtenOffset ≤
                  (utf8Encode (HtmlInsertionStream.getWritableBuffer M).2.stringBuffer).length
              rw [hr6, hq1]
              rcases hr3 with h | h
              · rw [h, hq3]
                exact hwr2
              · rw [h]
                rcases hq8 with h0 | ⟨ha, hb⟩
                · rw [h0]
                  simp
                · exact hb
            · show (HtmlInsertionStream.getWritableBuffer M).2.insertionLength =
                  (HtmlInsertionStream.getWritableBuffer M).2.insertionChunk.length
              rw [hr14, hr13, hq7, hq6]
              exact hcfg
        | some t =>
            rw [hfm] at hq9
            obtain ⟨hn1, hn2, hn3, hn4, hn5, hn6, hn7⟩ := hq9
            have hflatbd : (flat (s.e.buffers ++ [w.data])).length =
                (flat s.e.buffers).length + w.data.length := by
              simp [flat_append, flat]
            have hflatM : (flat M.buffers).length =
                (flat (s.e.buffers ++ [w.data])).length + s.e.insertionChunk.length := by
              have := congrArg List.length hn6
              simp only [List.length_append, List.length_take, List.length_drop] at this
              rw [this]
              omega
            have hrel := getWritableBuffer_spec M
              (by
                rcases hq8 with h | ⟨ha, hb⟩
                · exact Or.inl h
                · right
                  refine ⟨by rw [hq3]; exact ha, ?_⟩
                  rw [hq3, hflatM]
                  omega)
            obtain ⟨hr1, hr2, hr3, hr4, hr5, hr6, hr7, hr8, hr9, hr10, hr11, hr12, hr13,
              hr14⟩ := hrel
            rw [hstep2]
            refine ⟨rfl, hr11.trans hq4, hr12.trans hq5, hr13.trans hq6, ?_⟩
            refine ⟨byteLen16 (s.e.stringBuffer ++ cps) (boundaryOf s.e.insertToEnd t),
              hr8.trans hn1, hr9.trans hn2, ?_, ?_, ?_, ?_, ?_, hr4, ?_, ?_, ?_⟩
            · show s.out ++ (HtmlInsertionStream.getWritableBuffer M).1 ++
                  flat (HtmlInsertionStream.getWritableBuffer M).2.buffers =
                streamContent (acc ++ w.data)
                  (HtmlInsertionStream.getWritableBuffer M).2.insertionChunk
                  (some (byteLen16 (s.e.stringBuffer ++ cps) (boundaryOf s.e.insertToEnd t)))
              rw [List.append_assoc, hr1, hn6]
              have htk : (acc ++ w.data).take
                  (byteLen16 (s.e.stringBuffer ++ cps) (boundaryOf s.e.insertToEnd t)) =
                  s.out ++ (flat (s.e.buffers ++ [w.data])).take
                    (byteLen16 (s.e.stringBuffer ++ cps) (boundaryOf s.e.insertToEnd t) -
                      s.e.writtenOffset) := by
                rw [← hcont2,
                  take_append_ge s.out (flat (s.e.buffers ++ [w.data])) _
                    (by rw [hout]; exact hn4), hout]
              have hdk : (acc ++ w.data).drop
                  (byteLen16 (s.e.stringBuffer ++ cps) (boundaryOf s.e.insertToEnd t)) =
                  (flat (s.e.buffers ++ [w.data])).drop
                    (byteLen16 (s.e.stringBuffer ++ cps) (boundaryOf s.e.insertToEnd t) -
                      s.e.writtenOffset) := by
                rw [← hcont2,
                  drop_append_ge s.out (flat (s.e.buffers ++ [w.data])) _
                    (by rw [hout]; exact hn4), hout]
              simp only [streamContent]
              rw [hr13.trans hq6, htk, hdk]
              simp [List.append_assoc]
            · intro _
              show (HtmlInsertionStream.getWritableBuffer M).2.len =
                  (flat (HtmlInsertionStream.getWritableBuffer M).2.buffers).length
              have h1 := congrArg List.length hr1
              simp only [List.length_append] at h1
              rw [hr5, hn7]
              omega
            · intro hx
              rw [show ({ s with
                  e := (HtmlInsertionStream.getWritableBuffer M).2
                  out := s.out ++ (HtmlInsertionStream.getWritableBuffer M).1
                  errs := s.errs } : RState).passthrough = s.passthrough from rfl, hpt] at hx
              exact absurd hx (by simp)
            · show byteLen16 (s.e.stringBuffer ++ cps) (boundaryOf s.e.insertToEnd t) ≤
                  (acc ++ w.data).length
              simp only [List.length_append]
              omega
            · show (HtmlInsertionStream.getWritableBuffer M).2.writtenOffset ≤
                  (acc ++ w.data).length
              simp only [List.length_append]
              rcases hr3 with h | h
              · rw [h, hq3]
                omega
              · rw [h]
                rcases hq8 with h0 | ⟨ha, hb⟩
                · rw [h0]; simp
                · omega
            · show isAligned16 (HtmlInsertionStream.getWritableBuffer M).2.stringBuffer
                  (boundaryOf s.e.insertToEnd t) = true
              rw [hr6, hq1]
              exact hn3
            · show byteLen16 (s.e.stringBuffer ++ cps) (boundaryOf s.e.insertToEnd t) =
                  byteLen16 (HtmlInsertionStream.getWritableBuffer M).2.stringBuffer
                    (boundaryOf s.e.insertToEnd t)
              rw [hr6, hq1]
            · refine ⟨acc ++ w.data, p2, [], ?_, by simp⟩
              rw [hr6, hq1]
              exact hdec2

/-- The engine state `[flush]` leaves behind: the queue emptied, everything
else untouched. -/
theorem flush_snd (e : HtmlInsertionStream) :
    (HtmlInsertionStream.flush e).2 = { e with buffers := [] } := by
  unfold HtmlInsertionStream.flush
  split <;> rfl

/-- `[push]` appends the chunk to the flat queue, adds its length to `len`,
and touches nothing else (the empty chunk is a no-op on both). -/
theorem push_spec (e : HtmlInsertionStream) (d : List Nat) :
    flat (HtmlInsertionStream.push e d).buffers = flat e.buffers ++ d ∧
    (HtmlInsertionStream.push e d).len = e.len + d.length ∧
    (HtmlInsertionStream.push e d).stringBuffer = e.stringBuffer ∧
    (HtmlInsertionStream.push e d).spliced = e.spliced ∧
    (HtmlInsertionStream.push e d).shouldParseHtml = e.shouldParseHtml ∧
    (HtmlInsertionStream.push e d).writtenOffset = e.writtenOffset ∧
    (HtmlInsertionStream.push e d).writableOffset = e.writableOffset ∧
    (HtmlInsertionStream.push e d).insertionChunk = e.insertionChunk ∧
    (HtmlInsertionStream.push e d).pending = e.pending := by
  unfold HtmlInsertionStream.push
  split
  · rename_i h
    have hd : d = [] := List.length_eq_zero.mp h
    subst hd
    simp
  · simp [flat_append, flat]

/-- One intercepted `res.write` from a post-splice state maintains the
post-splice invariant over the grown byte stream, emits no error and keeps the
configured insertion chunk (both the still-buffering branch and the
restore-and-flush branch). -/
theorem stepWrite_B (s : RState) (acc : List Nat) (k bnd : Nat) (w : WriteCall)
    (hinv : InvB s acc k bnd) :
    InvB (stepWrite s w) (acc ++ w.data) k bnd ∧
    (stepWrite s w).errs = s.errs ∧
    (stepWrite s w).e.insertionChunk = s.e.insertionChunk := by
  obtain ⟨hsp, hph, hcontent, hlenF, hptB, hk, hwrn, hwa, hal, hkb, hpre⟩ := hinv
  by_cases hpt : s.passthrough = true
  · -- original methods already restored: the data passes straight through
    have hbuf : s.e.buffers = [] := hptB hpt
    have hstep : stepWrite s w = { s with out := s.out ++ w.data } := by
      unfold stepWrite
      rw [if_pos hpt]
    rw [hstep]
    refine ⟨⟨hsp, hph, ?_, ?_, fun _ => hbuf, ?_, ?_, hwa, hal, hkb, ?_⟩, rfl, rfl⟩
    · show s.out ++ w.data ++ flat s.e.buffers = _
      rw [hbuf, streamContent_append acc s.e.insertionChunk w.data k hk, ← hcontent, hbuf]
      simp [flat]
    · intro h
      exact absurd (hpt.symm.trans h) (by simp)
    · show k ≤ (acc ++ w.data).length
      simp only [List.length_append]
      omega
    · show s.e.writtenOffset ≤ (acc ++ w.data).length
      simp only [List.length_append]
      omega
    · obtain ⟨aP, q, r, hd, hr⟩ := hpre
      exact ⟨aP, q, r ++ w.data, hd, by rw [← List.append_assoc, hr]⟩
  · -- first write after the splice turned HTML processing off: restore the
    -- original methods and flush the queue ahead of the data
    have hptF : s.passthrough = false := by simpa using hpt
    have hlen := hlenF hptF
    have hstep : stepWrite s w =
        { e := { s.e with buffers := [] }
          out := s.out ++ bufConcat (s.e.buffers ++ [w.data]) (s.e.len + w.data.length)
          errs := s.errs
          passthrough := true } := by
      unfold stepWrite
      rw [if_neg (by simp [hptF]), if_neg (by simp [hph])]
    have hbc : bufConcat (s.e.buffers ++ [w.data]) (s.e.len + w.data.length) =
        flat s.e.buffers ++ w.data := by
      have h1 : (flat (s.e.buffers ++ [w.data])).length = s.e.len + w.data.length := by
        rw [flat_append]
        simp [flat, hlen]
      rw [bufConcat_eq_flat _ _ h1, flat_append]
      simp [flat]
    rw [hstep]
    refine ⟨⟨hsp, hph, ?_, ?_, fun _ => rfl, ?_, ?_, hwa, hal, hkb, ?_⟩, rfl, rfl⟩
    · show s.out ++ bufConcat (s.e.buffers ++ [w.data]) (s.e.len + w.data.length) ++
          flat ([] : List (List Nat)) = _
      rw [hbc, streamContent_append acc s.e.insertionChunk w.data k hk, ← hcontent]
      simp [flat]
    · intro h
      exact absurd h (by simp)
    · show k ≤ (acc ++ w.data).length
      simp only [List.length_append]
      omega
    · show s.e.writtenOffset ≤ (acc ++ w.data).length
      simp only [List.length_append]
      omega
    · obtain ⟨aP, q, r, hd, hr⟩ := hpre
      exact ⟨aP, q, r ++ w.data, hd, by rw [← List.append_assoc, hr]⟩

/-- The final `res.end` from a post-splice state maintains the post-splice
invariant over the complete byte stream, emits no error and keeps the
configured insertion chunk; afterwards the original methods are restored and
the queue is empty, so the delivered bytes are exactly the spliced stream. -/
theorem stepEnd_B (s : RState) (acc : List Nat) (k bnd : Nat) (c : EndCall)
    (hinv : InvB s acc k bnd) :
    InvB (stepEnd s c) (acc ++ c.data.getD []) k bnd ∧
    (stepEnd s c).errs = s.errs ∧
    (stepEnd s c).e.insertionChunk = s.e.insertionChunk := by
  obtain ⟨hsp, hph, hcontent, hlenF, hptB, hk, hwrn, hwa, hal, hkb, hpre⟩ := hinv
  by_cases hpt : s.passthrough = true
  · -- original methods already restored
    have hbuf : s.e.buffers = [] := hptB hpt
    have hstep : stepEnd s c = { s with out := s.out ++ c.data.getD [] } := by
      unfold stepEnd
      rw [if_pos hpt]
    rw [hstep]
    refine ⟨⟨hsp, hph, ?_, ?_, fun _ => hbuf, ?_, ?_, hwa, hal, hkb, ?_⟩, rfl, rfl⟩
    · show s.out ++ c.data.getD [] ++ flat s.e.buffers = _
      rw [hbuf, streamContent_append acc s.e.insertionChunk (c.data.getD []) k hk,
        ← hcontent, hbuf]
      simp [flat]
    · intro h
      exact absurd (hpt.symm.trans h) (by simp)
    · show k ≤ (acc ++ c.data.getD []).length
      simp only [List.length_append]
      omega
    · show s.e.writtenOffset ≤ (acc ++ c.data.getD []).length
      simp only [List.length_append]
      omega
    · obtain ⟨aP, q, r, hd, hr⟩ := hpre
      exact ⟨aP, q, r ++ c.data.getD [], hd, by rw [← List.append_assoc, hr]⟩
  · have hptF : s.passthrough = false := by simpa using hpt
    by_cases hbe : s.e.buffers.length = 0
    · -- empty queue, HTML processing off: pass the final chunk straight through
      have hbuf : s.e.buffers = [] := List.length_eq_zero.mp hbe
      have hcond : ((HtmlInsertionStream.removeAnyTokenListeners s.e).buffers.length = 0 &&
          !(HtmlInsertionStream.removeAnyTokenListeners s.e).shouldParseHtml) = true := by
        simp [HtmlInsertionStream.removeAnyTokenListeners, hbe, hph]
      have hstep : stepEnd s c =
          { s with e := HtmlInsertionStream.removeAnyTokenListeners s.e
                   out := s.out ++ c.data.getD []
                   passthrough := true } := by
        simp only [stepEnd, hptF, Bool.false_eq_true, if_false, hcond, if_true]
      rw [hstep]
      refine ⟨⟨hsp, hph, ?_, ?_, fun _ => hbuf, ?_, ?_, hwa, hal, hkb, ?_⟩, rfl, rfl⟩
      · show s.out ++ c.data.getD [] ++ flat s.e.buffers =
            streamContent (acc ++ c.data.getD []) s.e.insertionChunk (some k)
        rw [hbuf, streamContent_append acc s.e.insertionChunk (c.data.getD []) k hk,
          ← hcontent, hbuf]
        simp [flat]
      · intro h
        exact absurd h (by simp)
      · show k ≤ (acc ++ c.data.getD []).length
        simp only [List.length_append]
        omega
      · show s.e.writtenOffset ≤ (acc ++ c.data.getD []).length
        simp only [List.length_append]
        omega
      · obtain ⟨aP, q, r, hd, hr⟩ := hpre
        exact ⟨aP, q, r ++ c.data.getD [], hd, by rw [← List.append_assoc, hr]⟩
    · -- nonempty queue: [push] the final chunk, [flush] everything to the
      -- original end
      have hlen := hlenF hptF
      have hcond2 : (HtmlInsertionStream.removeAnyTokenListeners s.e).shouldParseHtml =
          false := hph
      have hcond3 : decide
          ((HtmlInsertionStream.removeAnyTokenListeners s.e).buffers.length = 0) = false := by
        simp [HtmlInsertionStream.removeAnyTokenListeners, hbe]
      have hstep : stepEnd s c =
          { e := (HtmlInsertionStream.flush
              (HtmlInsertionStream.push (HtmlInsertionStream.removeAnyTokenListeners s.e)
                (c.data.getD []))).2
            out := s.out ++ (HtmlInsertionStream.flush
              (HtmlInsertionStream.push (HtmlInsertionStream.removeAnyTokenListeners s.e)
                (c.data.getD []))).1
            errs := s.errs ++ []
            passthrough := true } := by
        simp only [stepEnd, hptF, Bool.false_eq_true, if_false, hcond2,
          Bool.not_false, Bool.and_true, hcond3, if_true]
      obtain ⟨hp1, hp2, hp3, hp4, hp5, hp6, hp7, hp8, hp9⟩ :=
        push_spec (HtmlInsertionStream.removeAnyTokenListeners s.e) (c.data.getD [])
      have hE0b : flat (HtmlInsertionStream.removeAnyTokenListeners s.e).buffers =
          flat s.e.buffers := rfl
      have hE0l : (HtmlInsertionStream.removeAnyTokenListeners s.e).len = s.e.len := rfl
      have hlenP : (HtmlInsertionStream.push (HtmlInsertionStream.removeAnyTokenListeners s.e)
          (c.data.getD [])).len = (flat (HtmlInsertionStream.push
            (HtmlInsertionStream.removeAnyTokenListeners s.e) (c.data.getD [])).buffers).length := by
        rw [hp2, hp1, hE0b, hE0l, hlen]
        simp
      have hflush1 := flush_eq_flat _ hlenP
      have hflush2 := flush_snd (HtmlInsertionStream.push
        (HtmlInsertionStream.removeAnyTokenListeners s.e) (c.data.getD []))
      rw [hstep]
      refine ⟨⟨?_, ?_, ?_, ?_, ?_, ?_, ?_, ?_, ?_, ?_, ?_⟩, by simp, ?_⟩
      · show (HtmlInsertionStream.flush _).2.spliced = true
        rw [hflush2]
        show (HtmlInsertionStream.push _ _).spliced = true
        rw [hp4]
        exact hsp
      · show (HtmlInsertionStream.flush _).2.shouldParseHtml = false
        rw [hflush2]
        show (HtmlInsertionStream.push _ _).shouldParseHtml = false
        rw [hp5]
        exact hph
      · have hchunk : (HtmlInsertionStream.flush (HtmlInsertionStream.push
            (HtmlInsertionStream.removeAnyTokenListeners s.e)
              (c.data.getD []))).2.insertionChunk = s.e.insertionChunk := by
          rw [hflush2]
          show (HtmlInsertionStream.push _ _).insertionChunk = s.e.insertionChunk
          rw [hp8]
          rfl
        show s.out ++ (HtmlInsertionStream.flush (HtmlInsertionStream.push
              (HtmlInsertionStream.removeAnyTokenListeners s.e) (c.data.getD []))).1 ++
            flat (HtmlInsertionStream.flush (HtmlInsertionStream.push
              (HtmlInsertionStream.removeAnyTokenListeners s.e) (c.data.getD []))).2.buffers =
          streamContent (acc ++ c.data.getD [])
            (HtmlInsertionStream.flush (HtmlInsertionStream.push
              (HtmlInsertionStream.removeAnyTokenListeners s.e)
                (c.data.getD []))).2.insertionChunk (some k)
        rw [hchunk, hflush2]
        show s.out ++ (HtmlInsertionStream.flush _).1 ++ flat ([] : List (List Nat)) =
            streamContent (acc ++ c.data.getD []) s.e.insertionChunk (some k)
        rw [hflush1, hp1, hE0b,
          streamContent_append acc _ (c.data.getD []) k hk, ← hcontent]
        simp [flat]
      · intro h
        exact absurd h (by simp)
      · intro _
        rw [hflush2]
      · show k ≤ (acc ++ c.data.getD []).length
        simp only [List.length_append]
        omega
      · show (HtmlInsertionStream.flush _).2.writtenOffset ≤ (acc ++ c.data.getD []).length
        rw [hflush2]
        show (HtmlInsertionStream.push _ _).writtenOffset ≤ _
        rw [hp6]
        show s.e.writtenOffset ≤ (acc ++ c.data.getD []).length
        simp only [List.length_append]
        omega
      · show (HtmlInsertionStream.flush _).2.writableOffset = 0
        rw [hflush2]
        show (HtmlInsertionStream.push _ _).writableOffset = 0
        rw [hp7]
        exact hwa
      · show isAligned16 (HtmlInsertionStream.flush _).2.stringBuffer bnd = true
        rw [hflush2]
        show isAligned16 (HtmlInsertionStream.push _ _).stringBuffer bnd = true
        rw [hp3]
        exact hal
      · show k = byteLen16 (HtmlInsertionStream.flush _).2.stringBuffer bnd
        rw [hflush2]
        show k = byteLen16 (HtmlInsertionStream.push _ _).stringBuffer bnd
        rw [hp3]
        exact hkb
      · obtain ⟨aP, q, r, hd, hr⟩ := hpre
        refine ⟨aP, q, r ++ c.data.getD [], ?_, by rw [← List.append_assoc, hr]⟩
        show decodeBytes [] aP = some ((HtmlInsertionStream.flush _).2.stringBuffer, q)
        rw [hflush2]
        show decodeBytes [] aP = some ((HtmlInsertionStream.push _ _).stringBuffer, q)
        rw [hp3]
        exact hd
      · show (HtmlInsertionStream.flush _).2.insertionChunk = s.e.insertionChunk
        rw [hflush2]
        show (HtmlInsertionStream.push _ _).insertionChunk = s.e.insertionChunk
        rw [hp8]
        rfl

/-- The final `res.end` from a pre-splice HTML state: the listeners are
detached and the final chunk goes through `writeLast`, then the whole queue is
flushed to the original end.  Without a matching token the delivered bytes are
exactly the accepted bytes; the first matching token ends the response in the
post-splice state (payload inserted at the byte length of the decoded log up
to the token's boundary).  Either way no error is emitted. -/
theorem stepEnd_A (s : RState) (acc : List Nat) (c : EndCall)
    (hinv : InvA s acc) (hchk : checkEnd s c = true) :
    (stepEnd s c).errs = s.errs ∧
    (stepEnd s c).e.insertionChunk = s.e.insertionChunk ∧
    (match firstMatchList s.e.insertToEnd s.e.targetTagName c.tokens with
     | none => (stepEnd s c).out = acc ++ c.data.getD []
     | some t => ∃ k, InvB (stepEnd s c) (acc ++ c.data.getD []) k
         (boundaryOf s.e.insertToEnd t)) := by
  obtain ⟨hpt, hsp, hph, han, hcontent, hlen, hout, hdec, hpend, hwr, hwa0, hcfg⟩ := hinv
  have hwacc : s.e.writtenOffset ≤ acc.length := by
    rw [← hout, ← hcontent]
    simp
  have hcond2 : (HtmlInsertionStream.removeAnyTokenListeners s.e).shouldParseHtml =
      true := hph
  have hstep : stepEnd s c =
      { e := (HtmlInsertionStream.flush (HtmlInsertionStream.writeLast
          (HtmlInsertionStream.removeAnyTokenListeners s.e) (c.data.getD [])
            c.encoding c.tokens).e).2
        out := s.out ++ (HtmlInsertionStream.flush (HtmlInsertionStream.writeLast
          (HtmlInsertionStream.removeAnyTokenListeners s.e) (c.data.getD [])
            c.encoding c.tokens).e).1
        errs := s.errs ++ (HtmlInsertionStream.writeLast
          (HtmlInsertionStream.removeAnyTokenListeners s.e) (c.data.getD [])
            c.encoding c.tokens).errs
        passthrough := true } := by
    simp only [stepEnd, hpt, Bool.false_eq_true, if_false, hcond2, Bool.not_true,
      Bool.and_false, eq_self_iff_true, if_true]
  have hchk2 : encodingOk c.encoding = true ∧
      (if (c.data.getD []).length = 0 then c.tokens.isEmpty
       else
         match decodeBytes s.e.pending (c.data.getD []) with
         | some (cps, p2) =>
             p2.isEmpty &&
               c.tokens.all (tokenOk (s.e.stringBuffer ++ cps) s.e.writtenOffset)
         | none => false) = true := by
    have h1 : checkEnd s c =
        (encodingOk c.encoding &&
          (if (c.data.getD []).length = 0 then c.tokens.isEmpty
           else
             match decodeBytes s.e.pending (c.data.getD []) with
             | some (cps, p2) =>
                 p2.isEmpty &&
                   c.tokens.all (tokenOk (s.e.stringBuffer ++ cps) s.e.writtenOffset)
             | none => false)) := by
      unfold checkEnd
      rw [if_neg (by simp [hpt]), if_neg (by simp [hph]), if_pos (by simp [hph])]
    rw [h1, Bool.and_eq_true] at hchk
    exact hchk
  obtain ⟨henc, hchk3⟩ := hchk2
  by_cases hdata : (c.data.getD []).length = 0
  · -- no final chunk: nothing is pushed or decoded, the queue is flushed
    rw [if_pos hdata] at hchk3
    have htk : c.tokens = [] := by simpa using hchk3
    have hdata2 : c.data.getD [] = [] := List.length_eq_zero.mp hdata
    have hwl : HtmlInsertionStream.writeLast (HtmlInsertionStream.removeAnyTokenListeners s.e)
        (c.data.getD []) c.encoding c.tokens =
        ⟨HtmlInsertionStream.removeAnyTokenListeners s.e, []⟩ := by
      unfold HtmlInsertionStream.writeLast HtmlInsertionStream.internalWrite
      rw [if_neg (by rw [encodingOk_skip
          (HtmlInsertionStream.removeAnyTokenListeners s.e).shouldParseHtml
          c.encoding henc]; simp), if_pos hdata]
    have hlen0 : (HtmlInsertionStream.removeAnyTokenListeners s.e).len =
        (flat (HtmlInsertionStream.removeAnyTokenListeners s.e).buffers).length := hlen
    have hflush1 := flush_eq_flat _ hlen0
    rw [hstep, hwl, htk]
    refine ⟨by simp, ?_, ?_⟩
    · show (HtmlInsertionStream.flush
          (HtmlInsertionStream.removeAnyTokenListeners s.e)).2.insertionChunk =
        s.e.insertionChunk
      rw [flush_snd]
      rfl
    · simp only [firstMatchList]
      show s.out ++ (HtmlInsertionStream.flush
          (HtmlInsertionStream.removeAnyTokenListeners s.e)).1 = acc ++ c.data.getD []
      rw [hflush1, hdata2]
      show s.out ++ flat s.e.buffers = acc ++ []
      rw [List.append_nil]
      exact hcontent
  · -- a final chunk: push, decode completely, feed the tokenizer, flush
    rw [if_neg hdata] at hchk3
    cases hdecw : decodeBytes s.e.pending (c.data.getD []) with
    | none => rw [hdecw] at hchk3; exact absurd hchk3 (by simp)
    | some pr =>
        obtain ⟨cps, p2⟩ := pr
        rw [hdecw] at hchk3
        simp only [Bool.and_eq_true] at hchk3
        obtain ⟨hp2e, htoks⟩ := hchk3
        have hp2 : p2 = [] := by simpa using hp2e
        subst hp2
        have hwl : HtmlInsertionStream.writeLast
            (HtmlInsertionStream.removeAnyTokenListeners s.e)
            (c.data.getD []) c.encoding c.tokens =
            ⟨HtmlInsertionStream.processTokens
              { buffers := s.e.buffers ++ [c.data.getD []]
                stringBuffer := s.e.stringBuffer ++ cps
                len := s.e.len + (c.data.getD []).length
                writableOffset := s.e.writableOffset
                writtenOffset := s.e.writtenOffset
                shouldParseHtml := s.e.shouldParseHtml
                pending := []
                spliced := s.e.spliced
                anyListenersOn := false
                targetTagName := s.e.targetTagName
                insertionChunk := s.e.insertionChunk
                insertionLength := s.e.insertionLength
                insertToEnd := s.e.insertToEnd } c.tokens, []⟩ := by
          unfold HtmlInsertionStream.writeLast HtmlInsertionStream.internalWrite
          rw [if_neg (by rw [encodingOk_skip
              (HtmlInsertionStream.removeAnyTokenListeners s.e).shouldParseHtml
              c.encoding henc]; simp), if_neg hdata]
          have hdecw2 : decodeBytes
              (HtmlInsertionStream.removeAnyTokenListeners s.e).pending (c.data.getD []) =
              some (cps, []) := hdecw
          simp only [hdecw2]
          simp [HtmlInsertionStream.removeAnyTokenListeners]
        have hdec2 : decodeBytes [] (acc ++ c.data.getD []) =
            some (s.e.stringBuffer ++ cps, []) := by
          rw [decodeBytes_append, hdec]
          simp [hdecw]
        have hsound2 : utf8Encode (s.e.stringBuffer ++ cps) ++ [] =
            acc ++ c.data.getD [] := by
          simpa using decodeBytes_sound [] (acc ++ c.data.getD []) _ _ rfl hdec2
        have hacc2 : (utf8Encode (s.e.stringBuffer ++ cps)).length ≤ acc.length +
            (c.data.getD []).length := by
          have := congrArg List.length hsound2
          simp only [List.length_append] at this
          omega
        have hcont2 : s.out ++ flat (s.e.buffers ++ [c.data.getD []]) =
            acc ++ c.data.getD [] := by
          simp only [flat_append, flat, List.append_nil]
          rw [← List.append_assoc, hcontent]
        have hwr2 : s.e.writtenOffset ≤ (utf8Encode (s.e.stringBuffer ++ cps)).length := by
          rw [utf8Encode_append]
          simp only [List.length_append]
          omega
        have hspec := processTokens_spec c.tokens
          { buffers := s.e.buffers ++ [c.data.getD []]
            stringBuffer := s.e.stringBuffer ++ cps
            len := s.e.len + (c.data.getD []).length
            writableOffset := s.e.writableOffset
            writtenOffset := s.e.writtenOffset
            shouldParseHtml := s.e.shouldParseHtml
            pending := []
            spliced := s.e.spliced
            anyListenersOn := false
            targetTagName := s.e.targetTagName
            insertionChunk := s.e.insertionChunk
            insertionLength := s.e.insertionLength
            insertToEnd := s.e.insertToEnd }
          s.out (acc ++ c.data.getD []) hsp hph hcont2
          (by simp only [flat_append, flat, List.append_nil, List.length_append]
              omega)
          hout hdec2 hwr2 (Or.inl hwa0) hcfg (by simp) htoks
        set M : HtmlInsertionStream := HtmlInsertionStream.processTokens
          { buffers := s.e.buffers ++ [c.data.getD []]
            stringBuffer := s.e.stringBuffer ++ cps
            len := s.e.len + (c.data.getD []).length
            writableOffset := s.e.writableOffset
            writtenOffset := s.e.writtenOffset
            shouldParseHtml := s.e.shouldParseHtml
            pending := []
            spliced := s.e.spliced
            anyListenersOn := false
            targetTagName := s.e.targetTagName
            insertionChunk := s.e.insertionChunk
            insertionLength := s.e.insertionLength
            insertToEnd := s.e.insertToEnd } c.tokens with hM
        obtain ⟨hq1, hq2, hq3, hq4, hq5, hq6, hq7, hq8, hqW, hq9⟩ := hspec
        have hq1 : M.stringBuffer = s.e.stringBuffer ++ cps := hq1
        have hq3 : M.writtenOffset = s.e.writtenOffset := hq3
        have hq6 : M.insertionChunk = s.e.insertionChunk := hq6
        have hwaM : M.writableOffset = 0 := (hqW rfl).trans hwa0
        have hq9 : (match firstMatchList s.e.insertToEnd s.e.targetTagName c.tokens with
           | none =>
               M.spliced = false ∧ M.shouldParseHtml = true ∧
               M.anyListenersOn = false ∧
               M.buffers = s.e.buffers ++ [c.data.getD []] ∧
               M.len = s.e.len + (c.data.getD []).length
           | some t =>
               M.spliced = true ∧ M.shouldParseHtml = false ∧
               isAligned16 (s.e.stringBuffer ++ cps) (boundaryOf s.e.insertToEnd t) = true ∧
               s.e.writtenOffset ≤
                 byteLen16 (s.e.stringBuffer ++ cps) (boundaryOf s.e.insertToEnd t) ∧
               byteLen16 (s.e.stringBuffer ++ cps) (boundaryOf s.e.insertToEnd t) ≤
                 (utf8Encode (s.e.stringBuffer ++ cps)).length ∧
               flat M.buffers =
                 (flat (s.e.buffers ++ [c.data.getD []])).take
                     (byteLen16 (s.e.stringBuffer ++ cps) (boundaryOf s.e.insertToEnd t) -
                       s.e.writtenOffset) ++
                   s.e.insertionChunk ++
                     (flat (s.e.buffers ++ [c.data.getD []])).drop
                       (byteLen16 (s.e.stringBuffer ++ cps) (boundaryOf s.e.insertToEnd t) -
                         s.e.writtenOffset) ∧
               M.len = (flat M.buffers).length) := hq9
        have hstep2 : stepEnd s c =
            { e := (HtmlInsertionStream.flush M).2
              out := s.out ++ (HtmlInsertionStream.flush M).1
              errs := s.errs ++ []
              passthrough := true } := by
          rw [hstep, hwl]
        cases hfm : firstMatchList s.e.insertToEnd s.e.targetTagName c.tokens with
        | none =>
            rw [hfm] at hq9
            obtain ⟨hn1, hn2, hn3, hn4, hn5⟩ := hq9
            have hlenM : M.len = (flat M.buffers).length := by
              rw [hn5, hn4, flat_append]
              simp [flat, hlen]
            have hflush1 := flush_eq_flat M hlenM
            rw [hstep2]
            refine ⟨by simp, ?_, ?_⟩
            · show (HtmlInsertionStream.flush M).2.insertionChunk = s.e.insertionChunk
              rw [flush_snd]
              show M.insertionChunk = s.e.insertionChunk
              exact hq6
            · show s.out ++ (HtmlInsertionStream.flush M).1 = acc ++ c.data.getD []
              rw [hflush1, hn4]
              exact hcont2
        | some t =>
            rw [hfm] at hq9
            obtain ⟨hn1, hn2, hn3, hn4, hn5, hn6, hn7⟩ := hq9
            have hflush1 := flush_eq_flat M hn7
            have hflush2 := flush_snd M
            rw [hstep2]
            refine ⟨by simp, ?_, ?_⟩
            · show (HtmlInsertionStream.flush M).2.insertionChunk = s.e.insertionChunk
              rw [hflush2]
              show M.insertionChunk = s.e.insertionChunk
              exact hq6
            · refine ⟨byteLen16 (s.e.stringBuffer ++ cps) (boundaryOf s.e.insertToEnd t),
                ?_, ?_, ?_, ?_, ?_, ?_, ?_, ?_, ?_, ?_, ?_⟩
              · show (HtmlInsertionStream.flush M).2.spliced = true
                rw [hflush2]
                show M.spliced = true
                exact hn1
              · show (HtmlInsertionStream.flush M).2.shouldParseHtml = false
                rw [hflush2]
                show M.shouldParseHtml = false
                exact hn2
              · show s.out ++ (HtmlInsertionStream.flush M).1 ++
                    flat (HtmlInsertionStream.flush M).2.buffers =
                  streamContent (acc ++ c.data.getD [])
                    (HtmlInsertionStream.flush M).2.insertionChunk
                    (some (byteLen16 (s.e.stringBuffer ++ cps)
                      (boundaryOf s.e.insertToEnd t)))
                have hchunk : (HtmlInsertionStream.flush M).2.insertionChunk =
                    s.e.insertionChunk := by
                  rw [hflush2]
                  show M.insertionChunk = s.e.insertionChunk
                  exact hq6
                rw [hchunk, hflush2]
                show s.out ++ (HtmlInsertionStream.flush M).1 ++
                    flat ([] : List (List Nat)) =
                  streamContent (acc ++ c.data.getD []) s.e.insertionChunk
                    (some (byteLen16 (s.e.stringBuffer ++ cps)
                      (boundaryOf s.e.insertToEnd t)))
                rw [hflush1, hn6]
                have htk : (acc ++ c.data.getD []).take
                    (byteLen16 (s.e.stringBuffer ++ cps) (boundaryOf s.e.insertToEnd t)) =
                    s.out ++ (flat (s.e.buffers ++ [c.data.getD []])).take
                      (byteLen16 (s.e.stringBuffer ++ cps) (boundaryOf s.e.insertToEnd t) -
                        s.e.writtenOffset) := by
                  rw [← hcont2,
                    take_append_ge s.out (flat (s.e.buffers ++ [c.data.getD []])) _
                      (by rw [hout]; exact hn4), hout]
                have hdk : (acc ++ c.data.getD []).drop
                    (byteLen16 (s.e.stringBuffer ++ cps) (boundaryOf s.e.insertToEnd t)) =
                    (flat (s.e.buffers ++ [c.data.getD []])).drop
                      (byteLen16 (s.e.stringBuffer ++ cps) (boundaryOf s.e.insertToEnd t) -
                        s.e.writtenOffset) := by
                  rw [← hcont2,
                    drop_append_ge s.out (flat (s.e.buffers ++ [c.data.getD []])) _
                      (by rw [hout]; exact hn4), hout]
                simp only [streamContent]
                rw [htk, hdk]
                simp [List.append_assoc, flat]
              · intro hx
                exact absurd hx (by simp)
              · intro _
                rw [hflush2]
              · show byteLen16 (s.e.stringBuffer ++ cps) (boundaryOf s.e.insertToEnd t) ≤
                    (acc ++ c.data.getD []).length
                simp only [List.length_append]
                omega
              · show (HtmlInsertionStream.flush M).2.writtenOffset ≤
                    (acc ++ c.data.getD []).length
                rw [hflush2]
                show M.writtenOffset ≤ (acc ++ c.data.getD []).length
                rw [hq3]
                simp only [List.length_append]
                omega
              · show (HtmlInsertionStream.flush M).2.writableOffset = 0
                rw [hflush2]
                show M.writableOffset = 0
                exact hwaM
              · show isAligned16 (HtmlInsertionStream.flush M).2.stringBuffer
                    (boundaryOf s.e.insertToEnd t) = true
                rw [hflush2]
                show isAligned16 M.stringBuffer (boundaryOf s.e.insertToEnd t) = true
                rw [hq1]
                exact hn3
              · show byteLen16 (s.e.stringBuffer ++ cps) (boundaryOf s.e.insertToEnd t) =
                    byteLen16 (HtmlInsertionStream.flush M).2.stringBuffer
                      (boundaryOf s.e.insertToEnd t)
                rw [hflush2]
                show byteLen16 (s.e.stringBuffer ++ cps) (boundaryOf s.e.insertToEnd t) =
                    byteLen16 M.stringBuffer (boundaryOf s.e.insertToEnd t)
                rw [hq1]
              · refine ⟨acc ++ c.data.getD [], [], [], ?_, by simp⟩
                show decodeBytes [] (acc ++ c.data.getD []) =
                    some ((HtmlInsertionStream.flush M).2.stringBuffer, [])
                rw [hflush2]
                show decodeBytes [] (acc ++ c.data.getD []) = some (M.stringBuffer, [])
                rw [hq1]
                exact hdec2

/-- Once the splice has happened, the remaining writes and the final end
maintain the post-splice invariant over the whole byte stream, emitting no
further error and keeping the configured insertion chunk. -/
theorem runB (ws : List WriteCall) (s : RState) (acc : List Nat) (k bnd : Nat)
    (c : EndCall) (hinv : InvB s acc k bnd) :
    InvB (stepEnd (runWrites s ws) c)
      (acc ++ flat (ws.map WriteCall.data) ++ c.data.getD []) k bnd ∧
    (stepEnd (runWrites s ws) c).errs = s.errs ∧
    (stepEnd (runWrites s ws) c).e.insertionChunk = s.e.insertionChunk := by
  induction ws generalizing s acc with
  | nil =>
      have h := stepEnd_B s acc k bnd c hinv
      simpa [runWrites, flat] using h
  | cons w ws ih =>
      simp only [runWrites]
      obtain ⟨hinv2, herr, hchunk⟩ := stepWrite_B s acc k bnd w hinv
      obtain ⟨hinv3, herr3, hchunk3⟩ := ih (stepWrite s w) (acc ++ w.data) hinv2
      have hlist : acc ++ flat ((w :: ws).map WriteCall.data) ++ c.data.getD [] =
          (acc ++ w.data) ++ flat (ws.map WriteCall.data) ++ c.data.getD [] := by
        simp [flat, List.append_assoc]
      refine ⟨?_, ?_, ?_⟩
      · rw [hlist]
        exact hinv3
      · rw [herr3, herr]
      · rw [hchunk3, hchunk]

/-- A whole intercepted response from the initial pre-splice HTML state:
the error channel stays silent; without an insertion-triggering token the
delivered bytes are exactly the accepted body; the first such token leaves the
run in the post-splice state over the whole body. -/
theorem runA (ws : List WriteCall) (s : RState) (acc : List Nat) (c : EndCall)
    (hinv : InvA s acc) (hchk : checkRun s ws c = true) :
    (stepEnd (runWrites s ws) c).errs = s.errs ∧
    (stepEnd (runWrites s ws) c).e.insertionChunk = s.e.insertionChunk ∧
    (match firstMatchRun s.e.insertToEnd s.e.targetTagName ws c with
     | none => (stepEnd (runWrites s ws) c).out =
         acc ++ flat (ws.map WriteCall.data) ++ c.data.getD []
     | some t => ∃ k, InvB (stepEnd (runWrites s ws) c)
         (acc ++ flat (ws.map WriteCall.data) ++ c.data.getD []) k
         (boundaryOf s.e.insertToEnd t)) := by
  induction ws generalizing s acc with
  | nil =>
      obtain ⟨h1, h2, h3⟩ := stepEnd_A s acc c hinv hchk
      simp only [runWrites, firstMatchRun]
      have hacc : acc ++ flat (([] : List WriteCall).map WriteCall.data) ++
          c.data.getD [] = acc ++ c.data.getD [] := by
        simp [flat]
      rw [hacc]
      exact ⟨h1, h2, h3⟩
  | cons w ws ih =>
      simp only [checkRun, Bool.and_eq_true] at hchk
      obtain ⟨hcw, hcr⟩ := hchk
      obtain ⟨herr, htag, hite, hchunk, hmatch⟩ := stepWrite_A s acc w hinv hcw
      simp only [runWrites, firstMatchRun]
      have hlist : acc ++ flat ((w :: ws).map WriteCall.data) ++ c.data.getD [] =
          (acc ++ w.data) ++ flat (ws.map WriteCall.data) ++ c.data.getD [] := by
        simp [flat, List.append_assoc]
      cases hfm : firstMatchList s.e.insertToEnd s.e.targetTagName w.tokens with
      | some t =>
          rw [hfm] at hmatch
          obtain ⟨k, hinvB⟩ := hmatch
          obtain ⟨hinv3, herr3, hchunk3⟩ := runB ws (stepWrite s w) (acc ++ w.data) k
            (boundaryOf s.e.insertToEnd t) c hinvB
          refine ⟨?_, ?_, ?_⟩
          · rw [herr3, herr]
          · rw [hchunk3, hchunk]
          · refine ⟨k, ?_⟩
            rw [hlist]
            exact hinv3
      | none =>
          rw [hfm] at hmatch
          obtain ⟨herr3, hchunk3, hm3⟩ := ih (stepWrite s w) (acc ++ w.data) hmatch hcr
          rw [hite, htag] at hm3
          refine ⟨?_, ?_, ?_⟩
          · rw [herr3, herr]
          · rw [hchunk3, hchunk]
          · cases hfm2 : firstMatchRun s.e.insertToEnd s.e.targetTagName ws c with
            | none =>
                rw [hfm2] at hm3
                show (stepEnd (runWrites (stepWrite s w) ws) c).out =
                    acc ++ flat ((w :: ws).map WriteCall.data) ++ c.data.getD []
                rw [hm3, hlist]
            | some t =>
                rw [hfm2] at hm3
                obtain ⟨k, hk⟩ := hm3
                refine ⟨k, ?_⟩
                rw [hlist]
                exact hk

/-- Every branch of the patched `res.end` restores (or has already restored)
the original methods. -/
theorem stepEnd_passthrough (s : RState) (c : EndCall) :
    (stepEnd s c).passthrough = true := by
  simp only [stepEnd]
  split
  · rename_i h
    exact h
  · split <;> rfl

/-- The initial intercepted state of an HTML-classified response satisfies the
pre-splice invariant over the empty byte stream. -/
theorem InvA_init (tgt : String) (payload : List Nat) (ito : Bool) :
    InvA (initRState (initEngine tgt payload ito true)) [] :=
  ⟨rfl, rfl, rfl, rfl, rfl, rfl, rfl, rfl, rfl, Nat.zero_le _, rfl, rfl⟩

/-- Post-splice invariant preservation along any sequence of writes. -/
theorem runWritesB (ws : List WriteCall) (s : RState) (acc : List Nat) (k bnd : Nat)
    (hinv : InvB s acc k bnd) :
    InvB (runWrites s ws) (acc ++ flat (ws.map WriteCall.data)) k bnd := by
  induction ws generalizing s acc with
  | nil => simpa [runWrites, flat] using hinv
  | cons w ws ih =>
      simp only [runWrites]
      obtain ⟨hinv2, -, -⟩ := stepWrite_B s acc k bnd w hinv
      have hl : acc ++ flat ((w :: ws).map WriteCall.data) =
          (acc ++ w.data) ++ flat (ws.map WriteCall.data) := by
        simp [flat]
      rw [hl]
      exact ih (stepWrite s w) (acc ++ w.data) hinv2

/-- Any prefix of a contract-respecting run sits in the pre-splice or the
post-splice invariant over the bytes accepted so far. -/
theorem run_pre_inv (pre post : List WriteCall) (s : RState) (acc : List Nat)
    (c : EndCall) (hinv : InvA s acc)
    (hchk : checkRun s (pre ++ post) c = true) :
    InvA (runWrites s pre) (acc ++ flat (pre.map WriteCall.data)) ∨
    ∃ k bnd, InvB (runWrites s pre) (acc ++ flat (pre.map WriteCall.data)) k bnd := by
  induction pre generalizing s acc with
  | nil =>
      left
      simpa [runWrites, flat] using hinv
  | cons w pre ih =>
      rw [List.cons_append] at hchk
      simp only [checkRun, Bool.and_eq_true] at hchk
      obtain ⟨hcw, hcr⟩ := hchk
      obtain ⟨-, -, -, -, hmatch⟩ := stepWrite_A s acc w hinv hcw
      simp only [runWrites]
      have hl : acc ++ flat ((w :: pre).map WriteCall.data) =
          (acc ++ w.data) ++ flat (pre.map WriteCall.data) := by
        simp [flat]
      rw [hl]
      cases hfm : firstMatchList s.e.insertToEnd s.e.targetTagName w.tokens with
      | none =>
          rw [hfm] at hmatch
          exact ih (stepWrite s w) (acc ++ w.data) hmatch hcr
      | some t =>
          rw [hfm] at hmatch
          obtain ⟨k, hB⟩ := hmatch
          right
          exact ⟨k, boundaryOf s.e.insertToEnd t,
            runWritesB pre (stepWrite s w) (acc ++ w.data) k _ hB⟩

/-- After the original methods are restored, every write and the end pass
their data straight through. -/
theorem passthrough_writes (ws : List WriteCall) (s : RState)
    (h : s.passthrough = true) :
    runWrites s ws = { s with out := s.out ++ flat (ws.map WriteCall.data) } := by
  induction ws generalizing s with
  | nil => simp [runWrites, flat]
  | cons w ws ih =>
      simp only [runWrites]
      have hsw : stepWrite s w = { s with out := s.out ++ w.data } := by
        unfold stepWrite
        rw [if_pos h]
      rw [hsw, ih { s with out := s.out ++ w.data } h]
      simp [flat, List.append_assoc]

/-- A response not classified as HTML delivers exactly its input bytes, in
order, with no error: the first write (or the end, if there is no write)
restores the original methods, flushing the engine's empty queue ahead of the
data. -/
theorem nonHtml_out (tgt : String) (payload : List Nat) (ito : Bool) (inp : RunInput) :
    (runAll (initEngine tgt payload ito false) inp).out = allBytes inp ∧
    (runAll (initEngine tgt payload ito false) inp).errs = [] := by
  cases hws : inp.writes with
  | nil =>
      have hcond : ((HtmlInsertionStream.removeAnyTokenListeners
          (initEngine tgt payload ito false)).buffers.length = 0 &&
          !(HtmlInsertionStream.removeAnyTokenListeners
            (initEngine tgt payload ito false)).shouldParseHtml) = true := by
        simp [HtmlInsertionStream.removeAnyTokenListeners, initEngine]
      have hstep : stepEnd (initRState (initEngine tgt payload ito false)) inp.endCall =
          { initRState (initEngine tgt payload ito false) with
              e := HtmlInsertionStream.removeAnyTokenListeners
                (initEngine tgt payload ito false)
              out := [] ++ inp.endCall.data.getD []
              passthrough := true } := by
        simp only [stepEnd, hcond, if_true]
        rfl
      show (stepEnd (runWrites (initRState (initEngine tgt payload ito false))
          inp.writes) inp.endCall).out = allBytes inp ∧
        (stepEnd (runWrites (initRState (initEngine tgt payload ito false))
          inp.writes) inp.endCall).errs = []
      rw [hws]
      show (stepEnd (initRState (initEngine tgt payload ito false)) inp.endCall).out =
          allBytes inp ∧
        (stepEnd (initRState (initEngine tgt payload ito false)) inp.endCall).errs = []
      rw [hstep]
      constructor
      · show [] ++ inp.endCall.data.getD [] = allBytes inp
        simp [allBytes, hws, flat]
      · rfl
  | cons w ws =>
      have hsw : stepWrite (initRState (initEngine tgt payload ito false)) w =
          { e := initEngine tgt payload ito false
            out := [] ++ bufConcat ([] ++ [w.data]) (0 + w.data.length)
            errs := []
            passthrough := true } := by
        unfold stepWrite
        rw [if_neg (by simp [initRState]), if_neg (by simp [initRState, initEngine])]
        rfl
      have hbc : bufConcat (([] : List (List Nat)) ++ [w.data]) (0 + w.data.length) =
          w.data := by
        have h1 : (flat (([] : List (List Nat)) ++ [w.data])).length =
            0 + w.data.length := by
          simp [flat]
        rw [bufConcat_eq_flat _ _ h1]
        simp [flat]
      show (stepEnd (runWrites (initRState (initEngine tgt payload ito false))
          inp.writes) inp.endCall).out = allBytes inp ∧
        (stepEnd (runWrites (initRState (initEngine tgt payload ito false))
          inp.writes) inp.endCall).errs = []
      rw [hws]
      show (stepEnd (runWrites (stepWrite (initRState (initEngine tgt payload ito false))
          w) ws) inp.endCall).out = allBytes inp ∧
        (stepEnd (runWrites (stepWrite (initRState (initEngine tgt payload ito false))
          w) ws) inp.endCall).errs = []
      rw [hsw, passthrough_writes ws _ rfl]
      have hend : stepEnd
          { e := initEngine tgt payload ito false
            out := ([] ++ bufConcat ([] ++ [w.data]) (0 + w.data.length)) ++
              flat (ws.map WriteCall.data)
            errs := []
            passthrough := true } inp.endCall =
          { e := initEngine tgt payload ito false
            out := (([] ++ bufConcat ([] ++ [w.data]) (0 + w.data.length)) ++
              flat (ws.map WriteCall.data)) ++ inp.endCall.data.getD []
            errs := []
            passthrough := true } := by
        unfold stepEnd
        rw [if_pos rfl]
      rw [hend]
      constructor
      · show (([] ++ bufConcat ([] ++ [w.data]) (0 + w.data.length)) ++
            flat (ws.map WriteCall.data)) ++ inp.endCall.data.getD [] = allBytes inp
        rw [hbc]
        simp [allBytes, hws, flat, List.append_assoc]
      · rfl

/-- C1: for an HTML-classified response whose token stream contains the
insertion event for the target tag, and for every partition of the body bytes
into write calls (splits inside multi-byte characters or inside the tag
included, via the streaming-decode hypotheses of the tokenizer contract), the
delivered body is the accepted body with the payload spliced in exactly once
at the UTF-8 byte index of the decoded text up to the matching token's
boundary offset — after the open tag by default, before the close tag when
`insertToEnd` — and no error is emitted. -/
theorem c1_inserts_payload_once (tgt : String) (payload : List Nat) (ito : Bool)
    (inp : RunInput) (t : Token) (fullLog pfin : List Nat)
    (hvalid : validRun (initEngine tgt payload ito true) inp = true)
    (hfm : firstMatchRun ito tgt inp.writes inp.endCall = some t)
    (hdec : decodeBytes [] (allBytes inp) = some (fullLog, pfin)) :
    (runAll (initEngine tgt payload ito true) inp).out =
      (allBytes inp).take (byteLen16 fullLog (boundaryOf ito t)) ++ payload ++
        (allBytes inp).drop (byteLen16 fullLog (boundaryOf ito t)) ∧
    (runAll (initEngine tgt payload ito true) inp).errs = [] := by
  obtain ⟨herr, hchunk, hm⟩ := runA inp.writes
    (initRState (initEngine tgt payload ito true)) [] inp.endCall
    (InvA_init tgt payload ito) hvalid
  have hfm2 : firstMatchRun
      (initRState (initEngine tgt payload ito true)).e.insertToEnd
      (initRState (initEngine tgt payload ito true)).e.targetTagName
      inp.writes inp.endCall = some t := hfm
  rw [hfm2] at hm
  obtain ⟨k, hinvB⟩ := hm
  have haB : ([] : List Nat) ++ flat (inp.writes.map WriteCall.data) ++
      inp.endCall.data.getD [] = allBytes inp := by
    simp [allBytes]
  rw [haB] at hinvB
  obtain ⟨hsp, hph, hcontent, hlenF, hptB, hk, hwrn, hwa, hal, hkb, hpre⟩ := hinvB
  have hpt := stepEnd_passthrough
    (runWrites (initRState (initEngine tgt payload ito true)) inp.writes) inp.endCall
  have hbuf := hptB hpt
  have hchunk2 : (stepEnd (runWrites (initRState (initEngine tgt payload ito true))
      inp.writes) inp.endCall).e.insertionChunk = payload := hchunk
  rw [hbuf, hchunk2] at hcontent
  have hout : (stepEnd (runWrites (initRState (initEngine tgt payload ito true))
      inp.writes) inp.endCall).out = streamContent (allBytes inp) payload (some k) := by
    rw [← hcontent]
    simp [flat]
  obtain ⟨accPre, q, rest, hdpre, hsum⟩ := hpre
  have h2 : decodeBytes [] (accPre ++ rest) = some (fullLog, pfin) := by
    rw [hsum]
    exact hdec
  have h3 : decodeBytes [] (accPre ++ rest) =
      (match decodeBytes q rest with
       | none => none
       | some (o2, q2) =>
           some ((stepEnd (runWrites (initRState (initEngine tgt payload ito true))
             inp.writes) inp.endCall).e.stringBuffer ++ o2, q2)) := by
    rw [decodeBytes_append, hdpre]
  rw [h2] at h3
  cases hdr : decodeBytes q rest with
  | none =>
      rw [hdr] at h3
      simp at h3
  | some pr =>
      obtain ⟨o2, q2⟩ := pr
      rw [hdr] at h3
      simp only [Option.some.injEq, Prod.mk.injEq] at h3
      obtain ⟨hfull, -⟩ := h3
      have hal2 : isAligned16 (stepEnd (runWrites (initRState
          (initEngine tgt payload ito true)) inp.writes) inp.endCall).e.stringBuffer
          (boundaryOf ito t) = true := hal
      have hkb3 : k = byteLen16 (stepEnd (runWrites (initRState
          (initEngine tgt payload ito true)) inp.writes) inp.endCall).e.stringBuffer
          (boundaryOf ito t) := hkb
      have hkb2 : byteLen16 fullLog (boundaryOf ito t) = k := by
        rw [hfull, byteLen16_append_of_aligned _ _ _ hal2]
        exact hkb3.symm
      refine ⟨?_, herr⟩
      show (stepEnd (runWrites (initRState (initEngine tgt payload ito true))
          inp.writes) inp.endCall).out = _
      rw [hout, hkb2]
      rfl

theorem c1_witness :
    validRun (initEngine "body" [90] false true) c1Input = true ∧
    firstMatchRun false "body" c1Input.writes c1Input.endCall = some c9Token ∧
    decodeBytes [] (allBytes c1Input) = some ([60, 98, 111, 100, 121, 62], []) ∧
    ((runAll (initEngine "body" [90] false true) c1Input).out =
        (allBytes c1Input).take (byteLen16 [60, 98, 111, 100, 121, 62]
          (boundaryOf false c9Token)) ++ [90] ++
          (allBytes c1Input).drop (byteLen16 [60, 98, 111, 100, 121, 62]
            (boundaryOf false c9Token)) ∧
      (runAll (initEngine "body" [90] false true) c1Input).errs = []) :=
  ⟨by decide, by decide, by decide,
    c1_inserts_payload_once "body" [90] false c1Input c9Token
      [60, 98, 111, 100, 121, 62] [] (by decide) (by decide) (by decide)⟩

/-- C2 amended: the body does pass through byte-for-byte — for a valid
HTML-classified run whose token stream never triggers the insertion (with no
error), and for every run not classified as HTML — but headers are left
untouched only for non-HTML responses whose declared content-length is absent,
a non-negative integer or a digit-only string: an HTML-classified response's
content-length and etag are rewritten even when the target tag never appears
(see the counterexample). -/
theorem c2_amended_passthrough (tgt : String) (payload : List Nat) (ito : Bool)
    (inp : RunInput) (h : Headers) (P n : Nat) (suf sd : String)
    (hvalid : validRun (initEngine tgt payload ito true) inp = true)
    (hnone : firstMatchRun ito tgt inp.writes inp.endCall = none)
    (hct : (match h.contentType with
            | some ct => (hasHtmlContentType ct).1
            | none => false) = false)
    (hcl : h.contentLength = none ∨
      h.contentLength = some (CLValue.numInt (n : Int)) ∨
      (h.contentLength = some (CLValue.str sd) ∧ allDigits sd = true)) :
    (runAll (initEngine tgt payload ito true) inp).out = allBytes inp ∧
    (runAll (initEngine tgt payload ito true) inp).errs = [] ∧
    (runAll (initEngine tgt payload ito false) inp).out = allBytes inp ∧
    (updateHeaders h P suf).1.hdrs = h := by
  obtain ⟨herr, hchunk, hm⟩ := runA inp.writes
    (initRState (initEngine tgt payload ito true)) [] inp.endCall
    (InvA_init tgt payload ito) hvalid
  have hnone2 : firstMatchRun
      (initRState (initEngine tgt payload ito true)).e.insertToEnd
      (initRState (initEngine tgt payload ito true)).e.targetTagName
      inp.writes inp.endCall = none := hnone
  rw [hnone2] at hm
  refine ⟨?_, herr, (nonHtml_out tgt payload ito inp).1, ?_⟩
  · show (stepEnd (runWrites (initRState (initEngine tgt payload ito true))
        inp.writes) inp.endCall).out = allBytes inp
    rw [hm]
    simp [allBytes]
  · obtain ⟨ct, cl, tg⟩ := h
    have hflag : (match ct with
        | some c => hasHtmlContentType c
        | none => ((false : Bool), ([] : List Err))).1 = false := by
      cases ct with
      | none => rfl
      | some c => simpa using hct
    simp only [updateHeaders]
    rw [hflag]
    rcases hcl with hcl | hcl | ⟨hcl, hdg⟩
    · simp only at hcl
      subst hcl
      cases tg <;> simp
    · simp only at hcl
      subst hcl
      have hnn : ¬ ((n : Int) < 0) := by omega
      cases tg <;> simp [adjustContentLength, hnn]
    · simp only at hcl
      subst hcl
      cases hpi : parseIntDigits sd with
      | none => cases tg <;> simp [adjustContentLength, hdg, hpi]
      | some l => cases tg <;> simp [adjustContentLength, hdg, hpi]

theorem c2_amended_witness :
    (validRun (initEngine "body" [90] false true) c2Input = true ∧
      firstMatchRun false "body" c2Input.writes c2Input.endCall = none ∧
      (match (⟨some "text/plain", some (CLValue.numInt ((5 : Nat) : Int)),
          some "W"⟩ : Headers).contentType with
        | some ct => (hasHtmlContentType ct).1
        | none => false) = false ∧
      ((⟨some "text/plain", some (CLValue.numInt ((5 : Nat) : Int)),
          some "W"⟩ : Headers).contentLength =
        some (CLValue.numInt ((5 : Nat) : Int)))) ∧
    ((runAll (initEngine "body" [90] false true) c2Input).out = allBytes c2Input ∧
      (runAll (initEngine "body" [90] false true) c2Input).errs = [] ∧
      (runAll (initEngine "body" [90] false false) c2Input).out = allBytes c2Input ∧
      (updateHeaders ⟨some "text/plain", some (CLValue.numInt ((5 : Nat) : Int)),
        some "W"⟩ 1 "x").1.hdrs =
        ⟨some "text/plain", some (CLValue.numInt ((5 : Nat) : Int)), some "W"⟩) :=
  ⟨⟨by decide, by decide, by decide, by decide⟩,
    c2_amended_passthrough "body" [90] false c2Input
      ⟨some "text/plain", some (CLValue.numInt ((5 : Nat) : Int)), some "W"⟩ 1 5 "x" "0"
      (by decide) (by decide) (by decide) (Or.inr (Or.inl (by decide)))⟩

/-- C5: `[flush]` returns the concatenation, in original order, of the
accepted input bytes not yet released by `getWritableBuffer` (the queue
content, which in a splice-free response is exactly the accepted bytes minus
the released prefix), and the single remaining chunk unchanged when the queue
holds exactly one. -/
theorem c5_flush_returns_unreleased (e : HtmlInsertionStream) (released acc : List Nat)
    (hcontent : released ++ flat e.buffers = acc)
    (hlen : e.len = (flat e.buffers).length) :
    (HtmlInsertionStream.flush e).1 = acc.drop released.length ∧
    (∀ b, e.buffers = [b] → (HtmlInsertionStream.flush e).1 = b) := by
  constructor
  · rw [flush_eq_flat e hlen, ← hcontent]
    simp
  · intro b hb
    unfold HtmlInsertionStream.flush
    rw [hb]
    simp

theorem c5_witness :
    (([] : List Nat) ++ flat initTestEngine.buffers = [60, 98, 111, 100, 121, 62] ∧
      initTestEngine.len = (flat initTestEngine.buffers).length) ∧
    ((HtmlInsertionStream.flush initTestEngine).1 =
        ([60, 98, 111, 100, 121, 62] : List Nat).drop ([] : List Nat).length ∧
      (∀ b, initTestEngine.buffers = [b] →
        (HtmlInsertionStream.flush initTestEngine).1 = b)) :=
  ⟨⟨by decide, by decide⟩,
    c5_flush_returns_unreleased initTestEngine [] [60, 98, 111, 100, 121, 62]
      (by decide) (by decide)⟩

/-- C6 amended: between operations of a contract-respecting run, the released
prefix never exceeds the bytes accepted so far, but the pending-release marker
`writableOffset` is clear — every write ends in `getWritableBuffer`, which
resets it — so the claimed chain `writtenOffset ≤ writableOffset` fails as
soon as bytes have been released (see the counterexample); the chain holds
only transiently inside a write, between the token callbacks and the
release. -/
theorem c6_amended_watermark (tgt : String) (payload : List Nat) (ito : Bool)
    (pre post : List WriteCall) (c : EndCall)
    (hchk : checkRun (initRState (initEngine tgt payload ito true))
      (pre ++ post) c = true) :
    (runWrites (initRState (initEngine tgt payload ito true)) pre).e.writtenOffset ≤
      (flat (pre.map WriteCall.data)).length ∧
    (runWrites (initRState (initEngine tgt payload ito true)) pre).e.writableOffset = 0 := by
  have h := run_pre_inv pre post (initRState (initEngine tgt payload ito true)) []
    c (InvA_init tgt payload ito) hchk
  have hacc : ([] : List Nat) ++ flat (pre.map WriteCall.data) =
      flat (pre.map WriteCall.data) := by
    simp
  rw [hacc] at h
  rcases h with hA | ⟨k, bnd, hB⟩
  · obtain ⟨-, -, -, -, hcontent, -, hout, -, -, -, hwa, -⟩ := hA
    refine ⟨?_, hwa⟩
    rw [← hout, ← hcontent]
    simp
  · obtain ⟨-, -, -, -, -, -, hwrn, hwa, -, -, -⟩ := hB
    exact ⟨hwrn, hwa⟩

theorem c6_amended_witness :
    checkRun (initRState (initEngine "body" [90] false true))
        ([c6Write] ++ []) ⟨none, none, []⟩ = true ∧
    ((runWrites (initRState (initEngine "body" [90] false true))
        [c6Write]).e.writtenOffset ≤ (flat ([c6Write].map WriteCall.data)).length ∧
      (runWrites (initRState (initEngine "body" [90] false true))
        [c6Write]).e.writableOffset = 0) :=
  ⟨by decide,
    c6_amended_watermark "body" [90] false [c6Write] [] ⟨none, none, []⟩ (by decide)⟩

end InsertHtml
